import Mathlib

/-!
Verification development for the shvcli speculative namespace cache and
discovery engine (`src/shvcli/client.py`, `src/shvcli/tree.py`,
`src/shvcli/scan.py`, `src/shvcli/state.py`).

The embedding models:
  * `Node` (client.py `Node.__init__` / tree.py `Node.__init__`): children map,
    method table, `nodes_probed` / `methods_probed` flags.  Python `dict`s are
    modelled as association lists whose operations reproduce `dict` semantics
    (insertion order, in-place value replacement, `setdefault`, `pop`).
  * the tree operations `valid_path`, `invalid_path`, `get_node`, `get_method`;
  * the client wrappers `ls`, `dir`, `call`, `probe` (client.py) against an
    abstract remote side (`Remote`), with the remote calls they perform traced;
  * `scan_nodes` (scan.py) as a step function over an explicit worklist state;
  * serialization `Node._dump` / `Node._load` (tree.py).

Paths are modelled as the relative, normalized POSIX paths the CLI feeds these
functions: `parts` reproduces `PurePosixPath(p).parts` for such paths (split on
the slash, empty and `.` segments dropped).
-/

namespace Shvcli

set_option linter.unusedVariables false

/-- Method flags, modelling the `shv.RpcMethodFlags` bit set (only the bits the
cache logic reads are named). -/
structure MFlags where
  not_callable : Bool
  getter : Bool
  setter : Bool
  signal : Bool
deriving DecidableEq

/-- Method descriptor, modelling `shv.RpcMethodDesc` / `shv.RpcDir`: a name, a
classification flag set and the associated signal names. -/
structure MethodDesc where
  name : String
  flags : MFlags
  signals : List String
deriving DecidableEq

/-- Modelled from the spec: `RpcMethodDesc.stdls()`, the well-known descriptor
of the built-in child-lister (external `shv` library constant). -/
def stdls : MethodDesc := ⟨"ls", ⟨false, false, false, false⟩, ["lsmod"]⟩

/-- Modelled from the spec: `RpcMethodDesc.stddir()`, the well-known descriptor
of the built-in method-lister (external `shv` library constant). -/
def stddir : MethodDesc := ⟨"dir", ⟨false, false, false, false⟩, []⟩

/-- SHV basic values, the codomain of `Node._dump` (`shv.SHVType`). -/
inductive SHVVal where
  | null : SHVVal
  | bool (b : Bool) : SHVVal
  | int (n : Int) : SHVVal
  | str (s : String) : SHVVal
  | map (entries : List (String × SHVVal)) : SHVVal
  | imap (entries : List (Int × SHVVal)) : SHVVal

/-- Python truthiness of an SHV value, modelling `bool(x)` in `Node._load`. -/
def SHVVal.truthy : SHVVal → Bool
  | .null => false
  | .bool b => b
  | .int n => n != 0
  | .str s => s != ""
  | .map l => !l.isEmpty
  | .imap l => !l.isEmpty

/-- Models `shv.is_shvmap`: the value is a string-keyed mapping. -/
def SHVVal.isShvMap : SHVVal → Bool
  | .map _ => true
  | _ => false

/-- Modelled from the spec: the structural descriptor encoding of the external
`shv` library (`RpcMethodDesc.to_shv`); §4.1 requires it to encode name, flags
and signal names. -/
def MethodDesc.to_shv (d : MethodDesc) : SHVVal :=
  .imap [(1, .str d.name), (2, .bool d.flags.not_callable), (3, .bool d.flags.getter),
    (4, .bool d.flags.setter), (5, .bool d.flags.signal),
    (6, .map (d.signals.map (fun s => (s, .null))))]

/-- Modelled from the spec: the external decoder `RpcMethodDesc.from_shv`;
`none` models it raising `RpcInvalidParamError`/`ValueError` on a malformed
payload (in particular on anything that is not the imap shape it produced). -/
def MethodDesc.from_shv : SHVVal → Option MethodDesc
  | .imap [(1, .str n), (2, .bool nc), (3, .bool g), (4, .bool st), (5, .bool sg),
      (6, .map sigs)] => some ⟨n, ⟨nc, g, st, sg⟩, sigs.map Prod.fst⟩
  | _ => none

/-! ### Python `dict` as association list -/

/-- Python `d.get(k)` / `k in d` lookup. -/
def lookupL {α : Type} : List (String × α) → String → Option α
  | [], _ => none
  | (k, v) :: l, k' => if k' = k then some v else lookupL l k'

/-- Python `k in d`. -/
def containsKey {α : Type} (l : List (String × α)) (k : String) : Bool :=
  (lookupL l k).isSome

/-- Python `d[k] = v`: replace the value in place if the key is present (keeping its
position), else append the new entry (Python dict insertion order). -/
def insertL {α : Type} : List (String × α) → String → α → List (String × α)
  | [], k, v => [(k, v)]
  | (k₀, v₀) :: l, k, v =>
    if k₀ = k then (k, v) :: l else (k₀, v₀) :: insertL l k v

/-- Python `d.pop(k)`. -/
def eraseL {α : Type} (l : List (String × α)) (k : String) : List (String × α) :=
  l.filter (fun kv => kv.1 ≠ k)

/-- Python `d.setdefault(k, v)`. -/
def setdefaultL {α : Type} (l : List (String × α)) (k : String) (v : α) : List (String × α) :=
  if containsKey l k then l else l ++ [(k, v)]

/-- Python dict comprehension over pairs `l`: build a dict left to right. -/
def pyDict {α : Type} (l : List (String × α)) : List (String × α) :=
  l.foldl (fun acc kv => insertL acc kv.1 kv.2) []

/-- The keys, in order. -/
def keysOf {α : Type} (l : List (String × α)) : List String :=
  l.map Prod.fst

/-- No key occurs twice (always true of a Python dict). -/
def nodupKeys {α : Type} : List (String × α) → Bool
  | [] => true
  | (k, _) :: l => !containsKey l k && nodupKeys l

/-! ### The cached tree node -/

/-- One cached tree node (`Node` of client.py/tree.py): children, method table
(`none` values are methods known to be callable with unknown signature), and
the two probed flags.  The unused `not_nodes` field of client.py is omitted. -/
inductive Node where
  | mk (nodes : List (String × Node)) (methods : List (String × Option MethodDesc))
      (nodes_probed : Bool) (methods_probed : Bool)

def Node.nodes : Node → List (String × Node)
  | .mk ns _ _ _ => ns

def Node.methods : Node → List (String × Option MethodDesc)
  | .mk _ ms _ _ => ms

def Node.nodes_probed : Node → Bool
  | .mk _ _ np _ => np

def Node.methods_probed : Node → Bool
  | .mk _ _ _ mp => mp

@[simp] theorem Node.nodes_mk (ns ms np mp) : (Node.mk ns ms np mp).nodes = ns := rfl

@[simp] theorem Node.methods_mk (ns ms np mp) : (Node.mk ns ms np mp).methods = ms := rfl

@[simp] theorem Node.nodes_probed_mk (ns ms np mp) : (Node.mk ns ms np mp).nodes_probed = np := rfl

@[simp] theorem Node.methods_probed_mk (ns ms np mp) :
    (Node.mk ns ms np mp).methods_probed = mp := rfl

/-- The method table of a freshly constructed `Node` (`Node.__init__`). -/
def defaultMethods : List (String × Option MethodDesc) :=
  [("ls", some stdls), ("dir", some stddir)]

/-- Python `Node()`: no children, the two built-in methods, both flags false. -/
def freshNode : Node := .mk [] defaultMethods false false

/-! ### Paths

`parts p` models `PurePosixPath(p).parts` for the relative paths the CLI feeds
the tree: split on `/`, dropping empty and `.` segments. -/

/-- Split a character list on `/` into raw segments. -/
def splitSlash : List Char → List Char → List String
  | [], cur => [String.mk cur.reverse]
  | c :: cs, cur =>
    if c = '/' then String.mk cur.reverse :: splitSlash cs []
    else splitSlash cs (c :: cur)

/-- Models `PurePosixPath(p).parts` for a relative path. -/
def parts (p : String) : List String :=
  (splitSlash p.data []).filter (fun s => s ≠ "" && s ≠ ".")

/-- Python `p.count("/")` (scan.py depth accounting). -/
def countSlash (p : String) : Nat :=
  (p.data.filter (fun c => c = '/')).length

/-! ### Tree operations (client.py lines 51-91, tree.py lines 45-83) -/

/-- Source `get_node`: walk the children; `none` the moment a segment is missing. -/
def Node.get_node : Node → List String → Option Node
  | t, [] => some t
  | t, s :: ps => (lookupL t.nodes s).bind (fun c => c.get_node ps)

/-- Source `valid_path` followed by an in-place mutation `f` of the returned node:
`node = tree.valid_path(path); mutate node` — each missing segment is created
as `Node()`, and `f` is applied to the terminal node. -/
def Node.valid_path_mod : Node → List String → (Node → Node) → Node
  | t, [], f => f t
  | t, s :: ps, f =>
    .mk (insertL t.nodes s (((lookupL t.nodes s).getD freshNode).valid_path_mod ps f))
      t.methods t.nodes_probed t.methods_probed

/-- Source `valid_path` for its tree-growing effect alone. -/
def Node.valid_path (t : Node) (ps : List String) : Node :=
  t.valid_path_mod ps id

/-- Source `invalid_path`: walk all segments (returning unchanged the moment one is
missing) and pop the terminal segment from its parent. -/
def Node.invalid_path : Node → List String → Node
  | t, [] => t
  | t, [s] =>
    if containsKey t.nodes s then .mk (eraseL t.nodes s) t.methods t.nodes_probed t.methods_probed
    else t
  | t, s :: s₂ :: ps =>
    match lookupL t.nodes s with
    | none => t
    | some c =>
      .mk (insertL t.nodes s (c.invalid_path (s₂ :: ps))) t.methods t.nodes_probed t.methods_probed

/-- Source `get_method`: `node.methods.get(method, None)` on the resolved node; an
absent entry and a `None` descriptor both yield `None`. -/
def Node.get_method (t : Node) (ps : List String) (m : String) : Option MethodDesc :=
  match t.get_node ps with
  | none => none
  | some n => (lookupL n.methods m).join

/-! ### The remote side and the client wrappers (client.py lines 148-229)

The remote peer is an oracle: `lsR`/`dirR` return `none` when the remote call
raises `RpcError`, and `callR` distinguishes the `RpcMethodNotFoundError`
outcome from other errors (§6 of the spec). -/

/-- Outcome of a generic remote `call`. -/
inductive CallRes where
  | ok : CallRes
  | notFound : CallRes
  | otherErr : CallRes
deriving DecidableEq

/-- The remote peer as seen through the excluded RPC layer. -/
structure Remote where
  lsR : String → Option (List String)
  dirR : String → Option (List MethodDesc)
  callR : String → String → CallRes

/-- The in-place update `ls` performs on the node at the path:
`node.nodes = {k: node[k] if k in node else Node() for k in res};
node.nodes_probed = True`. -/
def lsUpd (n : Node) (names : List String) : Node :=
  .mk (pyDict (names.map (fun k => (k, (lookupL n.nodes k).getD freshNode))))
    n.methods true n.methods_probed

/-- The in-place update `dir` performs on the node at the path:
`node.methods = {d.name: d for d in res if NOT_CALLABLE not in d.flags};
node.methods_probed = True`. -/
def dirUpd (n : Node) (descs : List MethodDesc) : Node :=
  .mk n.nodes
    (pyDict ((descs.filter (fun d => !d.flags.not_callable)).map (fun d => (d.name, some d))))
    n.nodes_probed true

/-- The in-place update `call` performs on the node at the path:
`self.tree.valid_path(path).methods.setdefault(method, None)`. -/
def touchUpd (n : Node) (m : String) : Node :=
  .mk n.nodes (setdefaultL n.methods m none) n.nodes_probed n.methods_probed

/-- Source `SHVClient.ls` (client.py lines 148-161): on remote failure
`invalid_path(path)` and re-raise (`none` result); on success `valid_path(path)`
then replace that node's children and set `nodes_probed`. -/
def lsOp (r : Remote) (t : Node) (p : String) : Node × Option (List String) :=
  match r.lsR p with
  | none => (t.invalid_path (parts p), none)
  | some res => (t.valid_path_mod (parts p) (fun n => lsUpd n res), some res)

/-- Source `SHVClient.dir` (client.py lines 163-176): on remote failure
`invalid_path(path)` and re-raise; on success `valid_path(path)` then replace
that node's method table and set `methods_probed`. -/
def dirOp (r : Remote) (t : Node) (p : String) : Node × Option (List MethodDesc) :=
  match r.dirR p with
  | none => (t.invalid_path (parts p), none)
  | some res => (t.valid_path_mod (parts p) (fun n => dirUpd n res), some res)

/-- Source `SHVClient.call` (client.py lines 178-198): `RpcMethodNotFoundError` is
re-raised with no cache update; every other outcome (success or other
`RpcError`) records the method on `valid_path(path)` via `setdefault`. -/
def callOp (r : Remote) (t : Node) (p : String) (m : String) : Node × CallRes :=
  match r.callR p m with
  | .notFound => (t, .notFound)
  | .otherErr => (t.valid_path_mod (parts p) (fun n => touchUpd n m), .otherErr)
  | .ok => (t.valid_path_mod (parts p) (fun n => touchUpd n m), .ok)

/-- A remote call performed by `probe`/`scan`. -/
inductive RCall where
  | ls (p : String) : RCall
  | dir (p : String) : RCall
deriving DecidableEq

/-- Result of `SHVClient.probe`: final tree, the value of the returned Python
`node` reference (`none` when `probe` returns `None`), the remote calls made in
order, and `ok = false` iff an exception escaped `probe` (the `assert`;
`RpcError`/`ValueError` are swallowed by the source). -/
structure ProbeRes where
  tree : Node
  ret : Option Node
  trace : List RCall
  ok : Bool

/-- Steps 3-4 of `probe`, entered with `n` the node object resolved for the
path: `if not node.methods_probed: await self.dir(path)`. -/
def probeCore2 (r : Remote) (t : Node) (p : String) (n : Node) (tr : List RCall) : ProbeRes :=
  if n.nodes_probed then ⟨t, some n, tr, true⟩
  else
    match lsOp r t p with
    | (t', none) => ⟨t', some n, tr ++ [.ls p], true⟩
    | (t', some _) =>
      match t'.get_node (parts p) with
      | none => ⟨t', some n, tr ++ [.ls p], false⟩
      | some n' => ⟨t', some n', tr ++ [.ls p], true⟩

/-- Step 3 of `probe` (the `dir` probing), then step 4.  On a `dir` failure the
probe aborts, returning the node reference as it was when detached. -/
def probeCore (r : Remote) (t : Node) (p : String) (n : Node) (tr : List RCall) : ProbeRes :=
  if n.methods_probed then probeCore2 r t p n tr
  else
    match dirOp r t p with
    | (t', none) => ⟨t', some n, tr ++ [.dir p], true⟩
    | (t', some _) =>
      match t'.get_node (parts p) with
      | none => ⟨t', some n, tr ++ [.dir p], false⟩
      | some n' => probeCore2 r t' p n' (tr ++ [.dir p])

/-- Source `SHVClient.probe` (client.py lines 200-214).  The Python `node` variable is
an alias into the tree; the model re-reads the node after each successful
mutation (same value), and keeps the last value on failure (the detached
object the source returns).  `ok = false` models the `assert node is not None`
failing (or, in `probeCore`/`probeCore2`, an aliasing re-read failing), which
is proved unreachable. -/
def probeOp (r : Remote) (t : Node) (p : String) : ProbeRes :=
  match t.get_node (parts p) with
  | some n => probeCore r t p n []
  | none =>
    match lsOp r t p with
    | (t', none) => ⟨t', none, [.ls p], true⟩
    | (t', some _) =>
      match t'.get_node (parts p) with
      | none => ⟨t', none, [.ls p], false⟩
      | some n => probeCore r t' p n [.ls p]

/-- The remote calls `probe(p)` performs, characterized from the cache state:
nothing when both flags are set; `ls p` first when the path is unresolvable;
`dir p` when methods are unprobed (aborting on failure); a final `ls p` when
children are unprobed. -/
def expectedTrace (r : Remote) (t : Node) (p : String) : List RCall :=
  match t.get_node (parts p) with
  | none =>
    .ls p :: (match r.lsR p with
      | none => []
      | some _ => [.dir p])
  | some n =>
    if n.methods_probed then
      (if n.nodes_probed then [] else [.ls p])
    else
      .dir p :: (match r.dirR p with
        | none => []
        | some _ => if n.nodes_probed then [] else [.ls p])

/-! ### Scan (scan.py `scan_nodes`, cli.py `scan_tree`)

The worklist loop is embedded as a step function on an explicit state; the
progress-bar bookkeeping is display-only and omitted. -/

/-- State of the `while pths:` loop: the tree, the pending paths (`pths`, in
list order, popped from the end as Python `list.pop()` does) and the paths
probed so far. -/
structure ScanState where
  tree : Node
  pths : List String
  probed : List String

/-- Python `(pth.count("/") + 1 if pth else 0)`. -/
def mval (p : String) : Nat :=
  if p = "" then 0 else countSlash p + 1

/-- Python path join of pth and name with a slash when pth is non-empty. -/
def joinPath (p : String) (name : String) : String :=
  if p = "" then name else p ++ "/" ++ name

/-- One iteration of the scan loop: pop the last pending path, probe it, and
when the returned node exists and the depth bound allows, push one entry per
child name of the returned node. -/
def scanStep (r : Remote) (depth : Nat) (s : ScanState) : ScanState :=
  match s.pths.getLast? with
  | none => s
  | some pth =>
    match (probeOp r s.tree pth).ret with
    | none => ⟨(probeOp r s.tree pth).tree, s.pths.dropLast, s.probed ++ [pth]⟩
    | some node =>
      if mval pth < depth then
        ⟨(probeOp r s.tree pth).tree,
          s.pths.dropLast ++ (keysOf node.nodes).map (joinPath pth), s.probed ++ [pth]⟩
      else ⟨(probeOp r s.tree pth).tree, s.pths.dropLast, s.probed ++ [pth]⟩

/-- Run `n` iterations of the scan loop. -/
def scanRun (r : Remote) (depth : Nat) : Nat → ScanState → ScanState
  | 0, s => s
  | n + 1, s => scanRun r depth n (scanStep r depth s)

/-- Initial scan state for `scan_nodes(client, path, d)`: worklist `[path]`.
The effective depth bound is `d + path.count("/")`. -/
def scanInit (t : Node) (p : String) : ScanState := ⟨t, [p], []⟩

/-! ### The cache-mutation operation language (for invariants)

Every tree mutation the client performs — via `ls`, `dir`, `call`, the signal
handler `_message` (`valid_path(msg.path).methods.setdefault(msg.source,
None)`), the `.app` seeding in `__init__`, and hence via `probe` and `scan`
which are composed of these — is one of the following operations. -/

inductive COp where
  | lsOk (p : String) (names : List String) : COp
  | lsFail (p : String) : COp
  | dirOk (p : String) (descs : List MethodDesc) : COp
  | dirFail (p : String) : COp
  | callTouch (p : String) (m : String) : COp
  | ensureP (p : String) : COp

/-- Apply one cache mutation. -/
def applyOp (t : Node) : COp → Node
  | .lsOk p names => t.valid_path_mod (parts p) (fun n => lsUpd n names)
  | .lsFail p => t.invalid_path (parts p)
  | .dirOk p descs => t.valid_path_mod (parts p) (fun n => dirUpd n descs)
  | .dirFail p => t.invalid_path (parts p)
  | .callTouch p m => t.valid_path_mod (parts p) (fun n => touchUpd n m)
  | .ensureP p => t.valid_path (parts p)

/-- Apply a whole history of cache mutations, oldest first. -/
def applyOps (t : Node) (ops : List COp) : Node :=
  ops.foldl applyOp t

/-! ### Association-list lemmas -/

theorem lookupL_insertL {α : Type} (l : List (String × α)) (k k' : String) (v : α) :
    lookupL (insertL l k v) k' = if k' = k then some v else lookupL l k' := by
  induction l with
  | nil => simp [insertL, lookupL]
  | cons kv l ih =>
    obtain ⟨k₀, v₀⟩ := kv
    unfold insertL
    by_cases h₀ : k₀ = k
    · subst h₀
      by_cases h₁ : k' = k₀ <;> simp [lookupL, h₁]
    · simp only [if_neg h₀, lookupL]
      by_cases h₁ : k' = k₀
      · subst h₁
        simp [lookupL, h₀]
      · simp [h₁, ih]

theorem lookupL_eraseL {α : Type} (l : List (String × α)) (k k' : String) :
    lookupL (eraseL l k) k' = if k' = k then none else lookupL l k' := by
  induction l with
  | nil => simp [eraseL, lookupL]
  | cons kv l ih =>
    obtain ⟨k₀, v₀⟩ := kv
    by_cases h₀ : k₀ = k
    · subst h₀
      have : eraseL ((k₀, v₀) :: l) k₀ = eraseL l k₀ := by simp [eraseL]
      rw [this, ih]
      by_cases h₁ : k' = k₀ <;> simp [h₁, lookupL]
    · have : eraseL ((k₀, v₀) :: l) k = (k₀, v₀) :: eraseL l k := by simp [eraseL, h₀]
      rw [this]
      by_cases h₁ : k' = k₀
      · subst h₁
        simp [lookupL, h₀]
      · simp [lookupL, h₁, ih]

theorem lookupL_append {α : Type} (l₁ l₂ : List (String × α)) (k : String) :
    lookupL (l₁ ++ l₂) k =
      match lookupL l₁ k with
      | some v => some v
      | none => lookupL l₂ k := by
  induction l₁ with
  | nil => simp [lookupL]
  | cons kv l ih =>
    obtain ⟨k₀, v₀⟩ := kv
    by_cases h₁ : k = k₀ <;> simp [lookupL, h₁, ih]

theorem lookupL_setdefaultL {α : Type} (l : List (String × α)) (k k' : String) (v v' : α)
    (h : lookupL l k' = some v') :
    lookupL (setdefaultL l k v) k' = some v' := by
  unfold setdefaultL
  split
  · exact h
  · rw [lookupL_append, h]

theorem lookupL_setdefaultL_self {α : Type} (l : List (String × α)) (k : String) (v : α)
    (h : lookupL l k = none) :
    lookupL (setdefaultL l k v) k = some v := by
  unfold setdefaultL
  rw [if_neg (by simp [containsKey, h]), lookupL_append, h]
  simp [lookupL]

theorem lookupL_pyDict_map_aux {α : Type} (g : String → α) (k : String) :
    ∀ (l : List String) (acc : List (String × α)),
      lookupL ((l.map (fun k' => (k', g k'))).foldl (fun acc kv => insertL acc kv.1 kv.2) acc) k =
        if l.contains k then some (g k) else lookupL acc k := by
  intro l
  induction l with
  | nil => simp
  | cons k₀ rest ih =>
    intro acc
    simp only [List.map_cons, List.foldl_cons, ih, lookupL_insertL, List.contains_cons]
    by_cases h₀ : k = k₀
    · subst h₀
      by_cases h₁ : rest.contains k <;> simp [h₁]
    · have : (k₀ == k) = false := by simp [Ne.symm h₀]
      by_cases h₁ : rest.contains k <;> simp [h₁, h₀, this]

/-- Looking up in a Python dict comprehension over keys `l` with value
function `g`. -/
theorem lookupL_pyDict_map {α : Type} (l : List String) (g : String → α) (k : String) :
    lookupL (pyDict (l.map (fun k' => (k', g k')))) k =
      if l.contains k then some (g k) else none := by
  have h := lookupL_pyDict_map_aux g k l []
  simpa [pyDict, lookupL] using h

/-! ### Tree-walk lemmas -/

@[simp] theorem get_node_nil (t : Node) : t.get_node [] = some t := rfl

theorem get_node_cons (t : Node) (s : String) (ps : List String) :
    t.get_node (s :: ps) = (lookupL t.nodes s).bind (fun c => c.get_node ps) := rfl

theorem get_node_fresh (ps : List String) (n : Node) (h : freshNode.get_node ps = some n) :
    ps = [] ∧ n = freshNode := by
  cases ps with
  | nil => exact ⟨rfl, (Option.some.inj h).symm⟩
  | cons s ps => simp [get_node_cons, freshNode, lookupL] at h

theorem get_node_fresh_getD (ps : List String) :
    (freshNode.get_node ps).getD freshNode = freshNode := by
  cases h : freshNode.get_node ps with
  | none => rfl
  | some n => simpa using (get_node_fresh ps n h).2

/-- The node `valid_path(path)` returns (after the in-place mutation `f`) is
what a fresh `get_node(path)` resolves: `f` applied to the pre-existing node,
or to `Node()` if the path did not fully exist. -/
theorem get_node_valid_path_mod (f : Node → Node) :
    ∀ (ps : List String) (t : Node),
      (t.valid_path_mod ps f).get_node ps = some (f ((t.get_node ps).getD freshNode)) := by
  intro ps
  induction ps with
  | nil => intro t; simp [Node.valid_path_mod]
  | cons s ps ih =>
    intro t
    have hv : t.valid_path_mod (s :: ps) f =
        Node.mk (insertL t.nodes s (((lookupL t.nodes s).getD freshNode).valid_path_mod ps f))
          t.methods t.nodes_probed t.methods_probed := rfl
    rw [hv, get_node_cons]
    simp only [Node.nodes_mk, lookupL_insertL, reduceIte, Option.some_bind]
    rw [ih]
    rw [get_node_cons]
    cases hc : lookupL t.nodes s with
    | some c => simp
    | none => simp [get_node_fresh_getD]

/-- Resolving any path after `valid_path`+mutation: the resolved node either
was already in the tree (same value), or is a fresh node created along the
path, or is the mutated terminal node itself.  The hypothesis `hf` states that
the mutation keeps every child it exposes either as an old child or as a fresh
node (true of the `ls`/`dir`/`call` updates). -/
theorem get_node_valid_path_mod_any (f : Node → Node)
    (hf : ∀ n k c, lookupL (f n).nodes k = some c → lookupL n.nodes k = some c ∨ c = freshNode) :
    ∀ (rs : List String) (t : Node) (qs : List String) (n' : Node),
      (t.valid_path_mod rs f).get_node qs = some n' →
      (∃ n₀, t.get_node qs = some n₀ ∧ n'.methods = n₀.methods) ∨
      n'.methods = freshNode.methods ∨
      (qs = rs ∧ n' = f ((t.get_node rs).getD freshNode)) := by
  intro rs
  induction rs with
  | nil =>
    intro t qs n' h
    rw [show t.valid_path_mod [] f = f t from rfl] at h
    cases qs with
    | nil =>
      right; right
      refine ⟨rfl, ?_⟩
      simpa using (Option.some.inj h).symm
    | cons q qs' =>
      rw [get_node_cons] at h
      cases hc : lookupL (f t).nodes q with
      | none => rw [hc] at h; exact absurd h (by simp)
      | some c =>
        rw [hc] at h
        simp only [Option.some_bind] at h
        rcases hf t q c hc with hold | hfresh
        · left
          refine ⟨n', ?_, rfl⟩
          rw [get_node_cons, hold]
          simpa using h
        · subst hfresh
          obtain ⟨-, rfl⟩ := get_node_fresh qs' n' h
          right; left; rfl
  | cons s rs' ih =>
    intro t qs n' h
    have hv : t.valid_path_mod (s :: rs') f =
        Node.mk (insertL t.nodes s (((lookupL t.nodes s).getD freshNode).valid_path_mod rs' f))
          t.methods t.nodes_probed t.methods_probed := rfl
    rw [hv] at h
    cases qs with
    | nil =>
      left
      refine ⟨t, rfl, ?_⟩
      rw [← Option.some.inj h]
      simp
    | cons q qs' =>
      rw [get_node_cons] at h
      simp only [Node.nodes_mk, lookupL_insertL] at h
      by_cases hq : q = s
      · subst hq
        rw [if_pos rfl] at h
        simp only [Option.some_bind] at h
        rcases ih ((lookupL t.nodes q).getD freshNode) qs' n' h with
          ⟨n₀, hn₀, hm⟩ | hm | ⟨rfl, hn'⟩
        · cases hc : lookupL t.nodes q with
          | some c =>
            rw [hc] at hn₀
            simp only [Option.getD_some] at hn₀
            left
            refine ⟨n₀, ?_, hm⟩
            rw [get_node_cons, hc]
            simpa using hn₀
          | none =>
            rw [hc] at hn₀
            simp only [Option.getD_none] at hn₀
            obtain ⟨-, rfl⟩ := get_node_fresh qs' n₀ hn₀
            right; left; exact hm
        · right; left; exact hm
        · right; right
          refine ⟨rfl, ?_⟩
          rw [hn', get_node_cons]
          cases hc : lookupL t.nodes q with
          | some c => simp
          | none => simp [get_node_fresh_getD]
      · rw [if_neg hq] at h
        cases hc : lookupL t.nodes q with
        | none => rw [hc] at h; exact absurd h (by simp)
        | some c =>
          rw [hc] at h
          simp only [Option.some_bind] at h
          left
          refine ⟨n', ?_, rfl⟩
          rw [get_node_cons, hc]
          simpa using h

/-- Resolving any path after `invalid_path`: the node value was already in the
tree with the same method table (`invalid_path` only removes a child entry). -/
theorem get_node_invalid_path :
    ∀ (rs : List String) (t : Node) (qs : List String) (n' : Node),
      (t.invalid_path rs).get_node qs = some n' →
      ∃ n₀, t.get_node qs = some n₀ ∧ n'.methods = n₀.methods := by
  intro rs
  induction rs with
  | nil => intro t qs n' h; exact ⟨n', h, rfl⟩
  | cons s rs' ih =>
    intro t qs n' h
    cases rs' with
    | nil =>
      rw [show t.invalid_path [s] =
          (if containsKey t.nodes s then
            Node.mk (eraseL t.nodes s) t.methods t.nodes_probed t.methods_probed
          else t) from rfl] at h
      split at h
      · cases qs with
        | nil =>
          refine ⟨t, rfl, ?_⟩
          rw [← Option.some.inj h]
          simp
        | cons q qs' =>
          rw [get_node_cons] at h
          simp only [Node.nodes_mk, lookupL_eraseL] at h
          by_cases hq : q = s
          · rw [if_pos hq] at h; exact absurd h (by simp)
          · rw [if_neg hq] at h
            cases hc : lookupL t.nodes q with
            | none => rw [hc] at h; exact absurd h (by simp)
            | some c =>
              rw [hc] at h
              simp only [Option.some_bind] at h
              refine ⟨n', ?_, rfl⟩
              rw [get_node_cons, hc]
              simpa using h
      · exact ⟨n', h, rfl⟩
    | cons s₂ ps =>
      cases hc : lookupL t.nodes s with
      | none =>
        rw [show t.invalid_path (s :: s₂ :: ps) =
            (match lookupL t.nodes s with
            | none => t
            | some c => Node.mk (insertL t.nodes s (c.invalid_path (s₂ :: ps)))
                t.methods t.nodes_probed t.methods_probed) from rfl, hc] at h
        exact ⟨n', h, rfl⟩
      | some c =>
        rw [show t.invalid_path (s :: s₂ :: ps) =
            (match lookupL t.nodes s with
            | none => t
            | some c => Node.mk (insertL t.nodes s (c.invalid_path (s₂ :: ps)))
                t.methods t.nodes_probed t.methods_probed) from rfl, hc] at h
        cases qs with
        | nil =>
          refine ⟨t, rfl, ?_⟩
          rw [← Option.some.inj h]
          simp
        | cons q qs' =>
          rw [get_node_cons] at h
          simp only [Node.nodes_mk, lookupL_insertL] at h
          by_cases hq : q = s
          · subst hq
            rw [if_pos rfl] at h
            simp only [Option.some_bind] at h
            obtain ⟨n₀, hn₀, hm⟩ := ih c qs' n' h
            refine ⟨n₀, ?_, hm⟩
            rw [get_node_cons, hc]
            simpa using hn₀
          · rw [if_neg hq] at h
            cases hc' : lookupL t.nodes q with
            | none => rw [hc'] at h; exact absurd h (by simp)
            | some c' =>
              rw [hc'] at h
              simp only [Option.some_bind] at h
              refine ⟨n', ?_, rfl⟩
              rw [get_node_cons, hc']
              simpa using h

/-- Source `invalid_path` never makes an unresolvable path resolvable. -/
theorem get_node_invalid_path_none (rs : List String) (t : Node) (qs : List String)
    (h : t.get_node qs = none) : (t.invalid_path rs).get_node qs = none := by
  cases h' : (t.invalid_path rs).get_node qs with
  | none => rfl
  | some n' =>
    obtain ⟨n₀, hn₀, -⟩ := get_node_invalid_path rs t qs n' h'
    rw [h] at hn₀
    cases hn₀

/-! ### Case characterization of `probe` -/

@[simp] theorem lsUpd_nodes_probed (n : Node) (names : List String) :
    (lsUpd n names).nodes_probed = true := rfl

@[simp] theorem lsUpd_methods_probed (n : Node) (names : List String) :
    (lsUpd n names).methods_probed = n.methods_probed := rfl

@[simp] theorem lsUpd_methods (n : Node) (names : List String) :
    (lsUpd n names).methods = n.methods := rfl

@[simp] theorem dirUpd_nodes_probed (n : Node) (descs : List MethodDesc) :
    (dirUpd n descs).nodes_probed = n.nodes_probed := rfl

@[simp] theorem dirUpd_methods_probed (n : Node) (descs : List MethodDesc) :
    (dirUpd n descs).methods_probed = true := rfl

@[simp] theorem dirUpd_nodes (n : Node) (descs : List MethodDesc) :
    (dirUpd n descs).nodes = n.nodes := rfl

/-- Fully probed node: `probe` performs no remote call. -/
theorem probe_case_done (r : Remote) (t : Node) (p : String) (n : Node)
    (h₀ : t.get_node (parts p) = some n) (h₁ : n.methods_probed = true)
    (h₂ : n.nodes_probed = true) :
    probeOp r t p = ⟨t, some n, [], true⟩ := by
  simp [probeOp, probeCore, probeCore2, h₀, h₁, h₂]

/-- Resolved node, methods probed, children unprobed, `ls` fails. -/
theorem probe_case_ls_fail (r : Remote) (t : Node) (p : String) (n : Node)
    (h₀ : t.get_node (parts p) = some n) (h₁ : n.methods_probed = true)
    (h₂ : n.nodes_probed = false) (hls : r.lsR p = none) :
    probeOp r t p = ⟨t.invalid_path (parts p), some n, [RCall.ls p], true⟩ := by
  simp [probeOp, probeCore, probeCore2, lsOp, h₀, h₁, h₂, hls]

/-- Resolved node, methods probed, children unprobed, `ls` succeeds. -/
theorem probe_case_ls_ok (r : Remote) (t : Node) (p : String) (n : Node) (res : List String)
    (h₀ : t.get_node (parts p) = some n) (h₁ : n.methods_probed = true)
    (h₂ : n.nodes_probed = false) (hls : r.lsR p = some res) :
    probeOp r t p = ⟨t.valid_path_mod (parts p) (fun m => lsUpd m res),
      some (lsUpd n res), [RCall.ls p], true⟩ := by
  simp [probeOp, probeCore, probeCore2, lsOp, h₀, h₁, h₂, hls,
    get_node_valid_path_mod]

/-- Resolved node, methods unprobed, `dir` fails: the probe aborts, returning
the detached node value. -/
theorem probe_case_dir_fail (r : Remote) (t : Node) (p : String) (n : Node)
    (h₀ : t.get_node (parts p) = some n) (h₁ : n.methods_probed = false)
    (hdir : r.dirR p = none) :
    probeOp r t p = ⟨t.invalid_path (parts p), some n, [RCall.dir p], true⟩ := by
  simp [probeOp, probeCore, dirOp, h₀, h₁, hdir]

/-- Resolved node, methods unprobed, `dir` succeeds, children already probed. -/
theorem probe_case_dir_ok_np (r : Remote) (t : Node) (p : String) (n : Node)
    (descs : List MethodDesc)
    (h₀ : t.get_node (parts p) = some n) (h₁ : n.methods_probed = false)
    (hdir : r.dirR p = some descs) (h₂ : n.nodes_probed = true) :
    probeOp r t p = ⟨t.valid_path_mod (parts p) (fun m => dirUpd m descs),
      some (dirUpd n descs), [RCall.dir p], true⟩ := by
  simp [probeOp, probeCore, probeCore2, dirOp, h₀, h₁, h₂, hdir,
    get_node_valid_path_mod]

/-- Resolved node, methods unprobed, `dir` succeeds, children unprobed, the
final `ls` fails. -/
theorem probe_case_dir_ok_ls_fail (r : Remote) (t : Node) (p : String) (n : Node)
    (descs : List MethodDesc)
    (h₀ : t.get_node (parts p) = some n) (h₁ : n.methods_probed = false)
    (hdir : r.dirR p = some descs) (h₂ : n.nodes_probed = false) (hls : r.lsR p = none) :
    probeOp r t p = ⟨(t.valid_path_mod (parts p) (fun m => dirUpd m descs)).invalid_path (parts p),
      some (dirUpd n descs), [RCall.dir p, RCall.ls p], true⟩ := by
  simp [probeOp, probeCore, probeCore2, dirOp, lsOp, h₀, h₁, h₂, hdir, hls,
    get_node_valid_path_mod]

/-- Resolved node, methods unprobed, `dir` succeeds, children unprobed, the
final `ls` succeeds. -/
theorem probe_case_dir_ok_ls_ok (r : Remote) (t : Node) (p : String) (n : Node)
    (descs : List MethodDesc) (res : List String)
    (h₀ : t.get_node (parts p) = some n) (h₁ : n.methods_probed = false)
    (hdir : r.dirR p = some descs) (h₂ : n.nodes_probed = false) (hls : r.lsR p = some res) :
    probeOp r t p =
      ⟨(t.valid_path_mod (parts p) (fun m => dirUpd m descs)).valid_path_mod (parts p)
          (fun m => lsUpd m res),
        some (lsUpd (dirUpd n descs) res), [RCall.dir p, RCall.ls p], true⟩ := by
  simp [probeOp, probeCore, probeCore2, dirOp, lsOp, h₀, h₁, h₂, hdir, hls,
    get_node_valid_path_mod]

/-- Unresolvable path, the initial `ls` fails: `probe` returns `None`. -/
theorem probe_case_unknown_ls_fail (r : Remote) (t : Node) (p : String)
    (h₀ : t.get_node (parts p) = none) (hls : r.lsR p = none) :
    probeOp r t p = ⟨t.invalid_path (parts p), none, [RCall.ls p], true⟩ := by
  simp [probeOp, lsOp, h₀, hls]

/-- Unresolvable path, the initial `ls` succeeds, `dir` fails. -/
theorem probe_case_unknown_dir_fail (r : Remote) (t : Node) (p : String) (res : List String)
    (h₀ : t.get_node (parts p) = none) (hls : r.lsR p = some res) (hdir : r.dirR p = none) :
    probeOp r t p =
      ⟨(t.valid_path_mod (parts p) (fun m => lsUpd m res)).invalid_path (parts p),
        some (lsUpd freshNode res), [RCall.ls p, RCall.dir p], true⟩ := by
  simp [probeOp, probeCore, dirOp, lsOp, h₀, hls, hdir,
    get_node_valid_path_mod, freshNode]

/-- Unresolvable path, the initial `ls` succeeds, `dir` succeeds: the node is
now fully probed (its children were set by the initial `ls`), so no further
`ls` happens. -/
theorem probe_case_unknown_dir_ok (r : Remote) (t : Node) (p : String) (res : List String)
    (descs : List MethodDesc)
    (h₀ : t.get_node (parts p) = none) (hls : r.lsR p = some res)
    (hdir : r.dirR p = some descs) :
    probeOp r t p =
      ⟨(t.valid_path_mod (parts p) (fun m => lsUpd m res)).valid_path_mod (parts p)
          (fun m => dirUpd m descs),
        some (dirUpd (lsUpd freshNode res) descs), [RCall.ls p, RCall.dir p], true⟩ := by
  simp [probeOp, probeCore, probeCore2, dirOp, lsOp, h₀, hls, hdir,
    get_node_valid_path_mod, freshNode]

/-! ### Concrete remotes used by counterexamples and witnesses -/

/-- A remote where only the path `"a"` exists: `ls`/`dir` succeed on it (with
empty results) and fail everywhere else. -/
def remoteA : Remote :=
  ⟨fun p => if p = "a" then some [] else none,
   fun p => if p = "a" then some [] else none,
   fun _ _ => .ok⟩

/-- A remote where `ls "a"` succeeds but every `dir` fails. -/
def remoteB : Remote :=
  ⟨fun p => if p = "a" then some [] else none,
   fun _ => none,
   fun _ _ => .ok⟩

/-- A remote where `"a"` has the single child `"b"`. -/
def remoteScan : Remote :=
  ⟨fun p => if p = "a" then some ["b"] else none,
   fun p => if p = "a" then some [] else none,
   fun _ _ => .ok⟩

/-! ### C1 -/

/-- C1 (amended): the remote calls `probe(P)` performs are exactly
`expectedTrace`: none when the cached node has both probed flags set; when P
is unresolvable, one `list_children` on P **itself** (not on its parent),
followed (if that succeeds) by one `list_methods(P)`; when P resolves, one
`list_methods(P)` if `methods_probed` is false (aborting if it fails) and one
`list_children(P)` if `nodes_probed` is false. -/
theorem probe_remote_calls_characterization (r : Remote) (t : Node) (p : String) :
    (probeOp r t p).trace = expectedTrace r t p := by
  cases h₀ : t.get_node (parts p) with
  | none =>
    cases hls : r.lsR p with
    | none =>
      rw [probe_case_unknown_ls_fail r t p h₀ hls]
      simp [expectedTrace, h₀, hls]
    | some res =>
      cases hdir : r.dirR p with
      | none =>
        rw [probe_case_unknown_dir_fail r t p res h₀ hls hdir]
        simp [expectedTrace, h₀, hls]
      | some descs =>
        rw [probe_case_unknown_dir_ok r t p res descs h₀ hls hdir]
        simp [expectedTrace, h₀, hls]
  | some n =>
    cases h₁ : n.methods_probed with
    | true =>
      cases h₂ : n.nodes_probed with
      | true =>
        rw [probe_case_done r t p n h₀ h₁ h₂]
        simp [expectedTrace, h₀, h₁, h₂]
      | false =>
        cases hls : r.lsR p with
        | none =>
          rw [probe_case_ls_fail r t p n h₀ h₁ h₂ hls]
          simp [expectedTrace, h₀, h₁, h₂]
        | some res =>
          rw [probe_case_ls_ok r t p n res h₀ h₁ h₂ hls]
          simp [expectedTrace, h₀, h₁, h₂]
    | false =>
      cases hdir : r.dirR p with
      | none =>
        rw [probe_case_dir_fail r t p n h₀ h₁ hdir]
        simp [expectedTrace, h₀, h₁, hdir]
      | some descs =>
        cases h₂ : n.nodes_probed with
        | true =>
          rw [probe_case_dir_ok_np r t p n descs h₀ h₁ hdir h₂]
          simp [expectedTrace, h₀, h₁, h₂, hdir]
        | false =>
          cases hls : r.lsR p with
          | none =>
            rw [probe_case_dir_ok_ls_fail r t p n descs h₀ h₁ hdir h₂ hls]
            simp [expectedTrace, h₀, h₁, h₂, hdir]
          | some res =>
            rw [probe_case_dir_ok_ls_ok r t p n descs res h₀ h₁ hdir h₂ hls]
            simp [expectedTrace, h₀, h₁, h₂, hdir]

/-- C1 counterexample: on the never-seen path `"a"` (whose parent is the root
`""`), `probe` performs `ls` on `"a"` itself and never on the parent `""`,
contradicting the claim that the first call is `list_children(parent(P))`. -/
theorem probe_ls_on_path_not_parent_cex :
    (freshNode.get_node (parts "a")).isNone = true ∧
    (probeOp remoteA freshNode "a").trace = [RCall.ls "a", RCall.dir "a"] ∧
    RCall.ls "" ∉ (probeOp remoteA freshNode "a").trace := by
  refine ⟨by decide, by decide, by decide⟩

/-! ### C3 -/

/-- C3 (amended): `probe` never raises to its caller (in particular the
internal `assert` never fires), and when it returns `None` the path was, and
remains, unresolvable.  However (see the counterexample) on a remote failure
it returns the node *value* it had already resolved, which the failing call
may just have removed from the cache. -/
theorem probe_never_raises_amended (r : Remote) (t : Node) (p : String) :
    (probeOp r t p).ok = true ∧
    ((probeOp r t p).ret = none → t.get_node (parts p) = none) ∧
    ((probeOp r t p).ret = none → (probeOp r t p).tree.get_node (parts p) = none) := by
  cases h₀ : t.get_node (parts p) with
  | none =>
    cases hls : r.lsR p with
    | none =>
      rw [probe_case_unknown_ls_fail r t p h₀ hls]
      exact ⟨rfl, fun _ => rfl, fun _ => get_node_invalid_path_none _ t _ h₀⟩
    | some res =>
      cases hdir : r.dirR p with
      | none =>
        rw [probe_case_unknown_dir_fail r t p res h₀ hls hdir]
        exact ⟨rfl, by simp, by simp⟩
      | some descs =>
        rw [probe_case_unknown_dir_ok r t p res descs h₀ hls hdir]
        exact ⟨rfl, by simp, by simp⟩
  | some n =>
    cases h₁ : n.methods_probed with
    | true =>
      cases h₂ : n.nodes_probed with
      | true =>
        rw [probe_case_done r t p n h₀ h₁ h₂]
        exact ⟨rfl, by simp, by simp⟩
      | false =>
        cases hls : r.lsR p with
        | none =>
          rw [probe_case_ls_fail r t p n h₀ h₁ h₂ hls]
          exact ⟨rfl, by simp, by simp⟩
        | some res =>
          rw [probe_case_ls_ok r t p n res h₀ h₁ h₂ hls]
          exact ⟨rfl, by simp, by simp⟩
    | false =>
      cases hdir : r.dirR p with
      | none =>
        rw [probe_case_dir_fail r t p n h₀ h₁ hdir]
        exact ⟨rfl, by simp, by simp⟩
      | some descs =>
        cases h₂ : n.nodes_probed with
        | true =>
          rw [probe_case_dir_ok_np r t p n descs h₀ h₁ hdir h₂]
          exact ⟨rfl, by simp, by simp⟩
        | false =>
          cases hls : r.lsR p with
          | none =>
            rw [probe_case_dir_ok_ls_fail r t p n descs h₀ h₁ hdir h₂ hls]
            exact ⟨rfl, by simp, by simp⟩
          | some res =>
            rw [probe_case_dir_ok_ls_ok r t p n descs res h₀ h₁ hdir h₂ hls]
            exact ⟨rfl, by simp, by simp⟩

/-- C3 witness: the amended theorem applied at the concrete remote where
`ls "a"` succeeds and `dir "a"` fails. -/
theorem probe_never_raises_amended_witness :
    (probeOp remoteB freshNode "a").ok = true :=
  (probe_never_raises_amended remoteB freshNode "a").1

/-- C3 counterexample: with `ls "a"` succeeding and `dir "a"` failing, `probe
"a"` swallows the failure but returns a node value even though `"a"` is no
longer resolvable in the cache (the failed `dir` invalidated it) — so it does
not return "whatever Node is currently resolvable". -/
theorem probe_returns_dangling_node_cex :
    (probeOp remoteB freshNode "a").ok = true ∧
    (probeOp remoteB freshNode "a").ret.isSome = true ∧
    ((probeOp remoteB freshNode "a").tree.get_node (parts "a")).isNone = true := by
  refine ⟨by decide, by decide, by decide⟩

/-! ### C2 -/

/-- C2: after a successful `list_children(P)` returning `N = res`, the node at
P has exactly the names of `res` as children — reusing the pre-existing child
node (with all its cached sub-information) for persisting names, a fresh
`Node()` for new names, no entry for any other name — its method table is
untouched, and `nodes_probed` is set. -/
theorem ls_success_children_update (r : Remote) (t : Node) (p : String) (res : List String)
    (hls : r.lsR p = some res) :
    ∃ node, (lsOp r t p).1.get_node (parts p) = some node ∧
      node.nodes_probed = true ∧
      node.methods = ((t.get_node (parts p)).getD freshNode).methods ∧
      (∀ k, k ∈ res →
        lookupL node.nodes k =
          some ((lookupL ((t.get_node (parts p)).getD freshNode).nodes k).getD freshNode)) ∧
      (∀ k, k ∉ res → lookupL node.nodes k = none) := by
  refine ⟨lsUpd ((t.get_node (parts p)).getD freshNode) res, ?_, rfl, rfl, ?_, ?_⟩
  · simp [lsOp, hls, get_node_valid_path_mod]
  · intro k hk
    simp only [lsUpd, Node.nodes_mk, lookupL_pyDict_map]
    simp [hk]
  · intro k hk
    simp only [lsUpd, Node.nodes_mk, lookupL_pyDict_map]
    simp [hk]

/-- C2 witness: the theorem applied to `remoteScan`, `ls "a" = ["b"]`. -/
theorem ls_success_children_update_witness :
    ∃ node, (lsOp remoteScan freshNode "a").1.get_node (parts "a") = some node ∧
      node.nodes_probed = true ∧
      node.methods = ((freshNode.get_node (parts "a")).getD freshNode).methods ∧
      (∀ k, k ∈ ["b"] →
        lookupL node.nodes k =
          some ((lookupL ((freshNode.get_node (parts "a")).getD freshNode).nodes k).getD
            freshNode)) ∧
      (∀ k, k ∉ ["b"] → lookupL node.nodes k = none) :=
  ls_success_children_update remoteScan freshNode "a" ["b"] (by decide)

/-! ### C4 -/

/-- C4: when the remote `call(P, M)` raises the distinguished "method not
found" error, the error is propagated and the cache is left exactly as it was:
`call` returns the unchanged tree. -/
theorem call_method_not_found_preserves_cache (r : Remote) (t : Node) (p m : String)
    (h : r.callR p m = CallRes.notFound) :
    callOp r t p m = (t, CallRes.notFound) := by
  simp [callOp, h]

/-- C4 witness: applied at a remote whose every call raises "method not
found". -/
theorem call_method_not_found_preserves_cache_witness :
    callOp ⟨fun _ => none, fun _ => none, fun _ _ => CallRes.notFound⟩ freshNode "a" "m" =
      (freshNode, CallRes.notFound) :=
  call_method_not_found_preserves_cache _ freshNode "a" "m" rfl

/-! ### C8 -/

theorem parts_empty : parts "" = [] := by decide

@[simp] theorem invalid_path_nil (t : Node) : t.invalid_path [] = t := rfl

/-- A remote on which every path listing fails and every call succeeds. -/
def remoteCallOnly : Remote := ⟨fun _ => none, fun _ => none, fun _ _ => .ok⟩

/-- C8 counterexample: `call("", "foo")` with a successful remote call does
mutate the root node's cached method table — `"foo"` is recorded via
`setdefault` — so the claimed empty-path special case does not exist in the
code. -/
theorem call_empty_path_mutates_root_cex :
    lookupL (callOp remoteCallOnly freshNode "" "foo").1.methods "foo" = some none ∧
    lookupL freshNode.methods "foo" = none := by
  refine ⟨by decide, by decide⟩

/-- C8 (amended): `call` has no empty-path special case.  On success or on any
failure other than "method not found", `call("", M)` runs the same
`valid_path("").methods.setdefault(M, None)` update as for any other path:
since `PurePosixPath("")` has no parts, `valid_path` returns the root itself,
whose children and probed flags are unchanged but whose method table gains M
(with an absent descriptor) if it was not already known. -/
theorem call_empty_path_records_method_amended (r : Remote) (t : Node) (m : String)
    (h : r.callR "" m ≠ CallRes.notFound) :
    (callOp r t "" m).1.nodes = t.nodes ∧
    (callOp r t "" m).1.methods = setdefaultL t.methods m none ∧
    (callOp r t "" m).1.nodes_probed = t.nodes_probed ∧
    (callOp r t "" m).1.methods_probed = t.methods_probed := by
  cases hc : r.callR "" m with
  | notFound => exact absurd hc h
  | otherErr =>
    simp [callOp, hc, parts_empty, Node.valid_path_mod, touchUpd]
  | ok =>
    simp [callOp, hc, parts_empty, Node.valid_path_mod, touchUpd]

/-- C8 witness: the amended theorem at the successful remote. -/
theorem call_empty_path_records_method_amended_witness :
    (callOp remoteCallOnly freshNode "" "foo").1.methods =
      setdefaultL freshNode.methods "foo" none :=
  (call_empty_path_records_method_amended remoteCallOnly freshNode "foo" (by decide)).2.1

/-! ### C9 -/

/-- C9: the root Node is never removed: invalidating the empty path is a no-op
(`PurePosixPath("")` has no parts, so nothing is popped), after any
`invalid_path` the root still resolves, and even a failing `list_children` on
the root (which invalidates the empty path) leaves the tree — and hence the
resolution of the empty path — unchanged. -/
theorem root_node_never_removed (t : Node) (r : Remote) (p : String) :
    t.invalid_path (parts "") = t ∧
    t.get_node (parts "") = some t ∧
    ((t.invalid_path (parts p)).get_node []).isSome = true ∧
    (r.lsR "" = none →
      (lsOp r t "").1 = t ∧ (lsOp r t "").1.get_node (parts "") = some t) := by
  refine ⟨by simp [parts_empty], by rw [parts_empty]; rfl, rfl, fun h => ?_⟩
  constructor
  · simp [lsOp, h, parts_empty]
  · simp [lsOp, h, parts_empty]

/-- C9 witness: the root survives a failing `ls("")` on the concrete remote
whose listings all fail. -/
theorem root_node_never_removed_witness :
    (lsOp remoteCallOnly freshNode "").1 = freshNode :=
  ((root_node_never_removed freshNode remoteCallOnly "x").2.2.2 rfl).1

/-! ### C5 -/

theorem mem_keysOf_iff_containsKey {α : Type} (l : List (String × α)) (k : String) :
    k ∈ keysOf l ↔ containsKey l k = true := by
  induction l with
  | nil => simp [keysOf, containsKey, lookupL]
  | cons kv l ih =>
    obtain ⟨k₀, v₀⟩ := kv
    by_cases h : k = k₀
    · simp [keysOf, containsKey, lookupL, h]
    · simp only [keysOf, List.map_cons, List.mem_cons, containsKey, lookupL, if_neg h] at ih ⊢
      simpa [h] using ih

theorem mem_keysOf_pyDict_map {α : Type} (C : List String) (g : String → α) (k : String) :
    k ∈ keysOf (pyDict (C.map (fun k' => (k', g k')))) ↔ k ∈ C := by
  rw [mem_keysOf_iff_containsKey]
  unfold containsKey
  rw [lookupL_pyDict_map]
  by_cases h : k ∈ C
  · simp [h]
  · simp [h]

theorem joinPath_empty (name : String) : joinPath "" name = name := by simp [joinPath]

theorem map_joinPath_empty (l : List String) : l.map (joinPath "") = l := by
  induction l with
  | nil => rfl
  | cons a l ih => simp [joinPath_empty, ih]

/-- A state with an empty worklist is terminal: the `while pths:` loop has
exited and further steps change nothing. -/
theorem scanStep_done (r : Remote) (depth : Nat) (s : ScanState) (h : s.pths = []) :
    scanStep r depth s = s := by
  unfold scanStep
  rw [h]
  rfl

/-- After the worklist contains only paths at or beyond the depth bound, the
scan drains it, probing each pending path (last first) and pushing nothing. -/
theorem scanRun_drain (r : Remote) (depth : Nat) (ps : List String) :
    ∀ (t : Node) (acc : List String),
      (∀ q ∈ ps, ¬ mval q < depth) →
      (scanRun r depth ps.length ⟨t, ps, acc⟩).pths = [] ∧
      (scanRun r depth ps.length ⟨t, ps, acc⟩).probed = acc ++ ps.reverse := by
  induction ps using List.reverseRecOn with
  | nil => intro t acc _; simp [scanRun]
  | append_singleton ps' q ih =>
    intro t acc h
    have hstep : scanStep r depth ⟨t, ps' ++ [q], acc⟩ =
        ⟨(probeOp r t q).tree, ps', acc ++ [q]⟩ := by
      unfold scanStep
      simp only [List.getLast?_concat, List.dropLast_concat]
      cases (probeOp r t q).ret with
      | none => rfl
      | some node => exact if_neg (h q (by simp))
    have hrun : scanRun r depth (ps' ++ [q]).length ⟨t, ps' ++ [q], acc⟩ =
        scanRun r depth ps'.length (scanStep r depth ⟨t, ps' ++ [q], acc⟩) := by
      rw [List.length_append]
      rfl
    rw [hrun, hstep]
    obtain ⟨h1, h2⟩ := ih (probeOp r t q).tree (acc ++ [q])
      (fun q' hq' => h q' (by simp [hq']))
    refine ⟨h1, ?_⟩
    rw [h2]
    simp

/-- C5 (amended): the scan depth bound is `d` plus the *slash count* of the
root path (one less than the segment count for a non-empty root).
`scan(R, 0)` probes exactly R for every R; `scan("", 1)` probes the empty root
and each of its direct children, and nothing else; but for a non-empty R,
`scan(R, 1)` probes only R (see the counterexample). -/
theorem scan_depth_accounting_amended :
    (∀ (r : Remote) (t : Node) (R : String),
      (scanRun r (0 + countSlash R) 1 (scanInit t R)).pths = [] ∧
      (scanRun r (0 + countSlash R) 1 (scanInit t R)).probed = [R]) ∧
    (∀ (r : Remote) (C : List String) (D : List MethodDesc),
      r.lsR "" = some C → r.dirR "" = some D → "" ∉ C →
      (scanRun r (1 + countSlash "")
          (1 + (keysOf (pyDict (C.map (fun k => (k, freshNode))))).length)
          (scanInit freshNode "")).pths = [] ∧
      (∀ x, x ∈ (scanRun r (1 + countSlash "")
          (1 + (keysOf (pyDict (C.map (fun k => (k, freshNode))))).length)
          (scanInit freshNode "")).probed ↔ (x = "" ∨ x ∈ C))) := by
  constructor
  · intro r t R
    have hdepth : ¬ mval R < 0 + countSlash R := by
      unfold mval
      split
      · next hR => subst hR; decide
      · omega
    have hstep : scanStep r (0 + countSlash R) ⟨t, [R], []⟩ =
        ⟨(probeOp r t R).tree, [], [R]⟩ := by
      unfold scanStep
      simp only [List.getLast?_singleton, List.dropLast_single]
      cases (probeOp r t R).ret with
      | none => rfl
      | some node => exact if_neg hdepth
    rw [show scanRun r (0 + countSlash R) 1 (scanInit t R) =
        scanStep r (0 + countSlash R) (scanInit t R) from rfl]
    rw [show scanInit t R = (⟨t, [R], []⟩ : ScanState) from rfl, hstep]
    exact ⟨rfl, rfl⟩
  · intro r C D hls hdir hC
    have h₀ : freshNode.get_node (parts "") = some freshNode := by rw [parts_empty]; rfl
    have hprobe := probe_case_dir_ok_ls_ok r freshNode "" freshNode D C h₀ rfl hdir rfl hls
    have hnodes : (lsUpd (dirUpd freshNode D) C).nodes =
        pyDict (C.map (fun k => (k, freshNode))) := by
      simp [lsUpd, dirUpd, freshNode, lookupL]
    have hstep : scanStep r (1 + countSlash "") ⟨freshNode, [""], []⟩ =
        ⟨(probeOp r freshNode "").tree,
          keysOf (pyDict (C.map (fun k => (k, freshNode)))), [""]⟩ := by
      unfold scanStep
      simp only [List.getLast?_singleton, List.dropLast_single]
      rw [hprobe]
      simp [hnodes, map_joinPath_empty]
      intro hcon
      exact absurd hcon (by decide)
    have hdrain := scanRun_drain r (1 + countSlash "")
      (keysOf (pyDict (C.map (fun k => (k, freshNode)))))
      (probeOp r freshNode "").tree [""]
      (by
        intro q hq
        have hqC : q ∈ C := (mem_keysOf_pyDict_map C (fun _ => freshNode) q).mp hq
        have hq0 : q ≠ "" := fun h => hC (h ▸ hqC)
        unfold mval
        rw [if_neg hq0]
        have h0 : countSlash "" = 0 := by decide
        omega)
    have hrun : scanRun r (1 + countSlash "")
        (1 + (keysOf (pyDict (C.map (fun k => (k, freshNode))))).length)
        (scanInit freshNode "") =
        scanRun r (1 + countSlash "")
          (keysOf (pyDict (C.map (fun k => (k, freshNode))))).length
          (scanStep r (1 + countSlash "") (scanInit freshNode "")) := by
      rw [Nat.add_comm 1 (keysOf (pyDict (C.map (fun k => (k, freshNode))))).length]
      rfl
    rw [hrun, show scanInit freshNode "" = (⟨freshNode, [""], []⟩ : ScanState) from rfl, hstep]
    refine ⟨hdrain.1, fun x => ?_⟩
    rw [hdrain.2]
    constructor
    · intro hx
      rcases List.mem_append.mp hx with hx | hx
      · left; simpa using hx
      · right
        exact (mem_keysOf_pyDict_map C (fun _ => freshNode) x).mp (List.mem_reverse.mp hx)
    · intro hx
      rcases hx with rfl | hx
      · exact List.mem_append.mpr (Or.inl (by simp))
      · exact List.mem_append.mpr (Or.inr
          (List.mem_reverse.mpr ((mem_keysOf_pyDict_map C (fun _ => freshNode) x).mpr hx)))

/-- A remote where the root has the single child `"c"`. -/
def remoteRoot : Remote :=
  ⟨fun p => if p = "" then some ["c"] else none,
   fun p => if p = "" then some [] else none,
   fun _ _ => .ok⟩

/-- C5 witness: part two of the amended theorem at `remoteRoot`:
`scan("", 1)` terminates and probes the direct child `"c"`. -/
theorem scan_depth_accounting_amended_witness :
    (scanRun remoteRoot (1 + countSlash "")
      (1 + (keysOf (pyDict ((["c"] : List String).map (fun k => (k, freshNode))))).length)
      (scanInit freshNode "")).pths = [] ∧
    "c" ∈ (scanRun remoteRoot (1 + countSlash "")
      (1 + (keysOf (pyDict ((["c"] : List String).map (fun k => (k, freshNode))))).length)
      (scanInit freshNode "")).probed := by
  have h := scan_depth_accounting_amended.2 remoteRoot ["c"] [] rfl rfl (by decide)
  exact ⟨h.1, (h.2 "c").mpr (Or.inr (by decide))⟩

/-- C5 counterexample: with root path `R = "a"` (one segment) and depth 1,
`scan` probes only `"a"` — not its direct child `"a/b"`, even though that
child was discovered by the probe of `"a"` and sits in the cache — because the
code adds `path.count("/")` (= 0), not the segment count (= 1), to the depth
bound. -/
theorem scan_depth_one_no_children_cex :
    (scanRun remoteScan (1 + countSlash "a") 2 (scanInit freshNode "a")).pths = [] ∧
    (scanRun remoteScan (1 + countSlash "a") 2 (scanInit freshNode "a")).probed = ["a"] ∧
    ((scanRun remoteScan (1 + countSlash "a") 2 (scanInit freshNode "a")).tree.get_node
        (parts "a")).map (fun n => containsKey n.nodes "b") = some true ∧
    "a/b" ∉ (scanRun remoteScan (1 + countSlash "a") 2 (scanInit freshNode "a")).probed := by
  refine ⟨by decide, by decide, by decide, by decide⟩

/-! ### C10 -/

/-- A node still carries the two built-in method entries with their standard
descriptors. -/
def hasBuiltins (n : Node) : Prop :=
  lookupL n.methods "ls" = some (some stdls) ∧ lookupL n.methods "dir" = some (some stddir)

theorem hasBuiltins_fresh : hasBuiltins freshNode := by
  constructor <;> decide

theorem hasBuiltins_of_methods_eq (n' n₀ : Node) (h : n'.methods = n₀.methods)
    (hb : hasBuiltins n₀) : hasBuiltins n' := by
  unfold hasBuiltins at hb ⊢
  rw [h]
  exact hb

theorem lsUpd_child_old_or_fresh (names : List String) :
    ∀ (n : Node) (k : String) (c : Node),
      lookupL (lsUpd n names).nodes k = some c →
      lookupL n.nodes k = some c ∨ c = freshNode := by
  intro n k c h
  simp only [lsUpd, Node.nodes_mk, lookupL_pyDict_map] at h
  split at h
  · have hc := Option.some.inj h
    cases hl : lookupL n.nodes k with
    | some c₀ =>
      rw [hl] at hc
      simp only [Option.getD_some] at hc
      exact Or.inl (by rw [hc])
    | none =>
      rw [hl] at hc
      simp only [Option.getD_none] at hc
      exact Or.inr hc.symm
  · cases h

/-- One cache mutation preserves the built-in method entries at every path
whose method table it does not replace wholesale (i.e. any path except the
target of a successful `dir`). -/
theorem applyOp_preserves_builtins (t : Node) (op : COp) (qs : List String)
    (hop : ∀ p descs, op = COp.dirOk p descs → parts p ≠ qs)
    (ht : ∀ n, t.get_node qs = some n → hasBuiltins n) :
    ∀ n', (applyOp t op).get_node qs = some n' → hasBuiltins n' := by
  intro n' h
  cases op with
  | lsOk p names =>
    rcases get_node_valid_path_mod_any (fun m => lsUpd m names)
        (fun n k c hc => lsUpd_child_old_or_fresh names n k c hc) (parts p) t qs n' h with
      ⟨n₀, hn₀, hm⟩ | hm | ⟨rfl, hn'⟩
    · exact hasBuiltins_of_methods_eq n' n₀ hm (ht n₀ hn₀)
    · exact hasBuiltins_of_methods_eq n' freshNode hm hasBuiltins_fresh
    · subst hn'
      refine hasBuiltins_of_methods_eq _ ((t.get_node (parts p)).getD freshNode) rfl ?_
      cases hc : t.get_node (parts p) with
      | some n₀ => simp only [hc, Option.getD_some]; exact ht n₀ hc
      | none => simp only [hc, Option.getD_none]; exact hasBuiltins_fresh
  | lsFail p =>
    obtain ⟨n₀, hn₀, hm⟩ := get_node_invalid_path (parts p) t qs n' h
    exact hasBuiltins_of_methods_eq n' n₀ hm (ht n₀ hn₀)
  | dirOk p descs =>
    rcases get_node_valid_path_mod_any (fun m => dirUpd m descs)
        (fun n k c hc => Or.inl hc) (parts p) t qs n' h with
      ⟨n₀, hn₀, hm⟩ | hm | ⟨rfl, hn'⟩
    · exact hasBuiltins_of_methods_eq n' n₀ hm (ht n₀ hn₀)
    · exact hasBuiltins_of_methods_eq n' freshNode hm hasBuiltins_fresh
    · exact absurd rfl (hop p descs rfl)
  | dirFail p =>
    obtain ⟨n₀, hn₀, hm⟩ := get_node_invalid_path (parts p) t qs n' h
    exact hasBuiltins_of_methods_eq n' n₀ hm (ht n₀ hn₀)
  | callTouch p m =>
    rcases get_node_valid_path_mod_any (fun n => touchUpd n m)
        (fun n k c hc => Or.inl hc) (parts p) t qs n' h with
      ⟨n₀, hn₀, hm⟩ | hm | ⟨rfl, hn'⟩
    · exact hasBuiltins_of_methods_eq n' n₀ hm (ht n₀ hn₀)
    · exact hasBuiltins_of_methods_eq n' freshNode hm hasBuiltins_fresh
    · subst hn'
      have hb : hasBuiltins ((t.get_node (parts p)).getD freshNode) := by
        cases hc : t.get_node (parts p) with
        | some n₀ => simp only [hc, Option.getD_some]; exact ht n₀ hc
        | none => simp only [hc, Option.getD_none]; exact hasBuiltins_fresh
      exact ⟨lookupL_setdefaultL _ _ _ _ _ hb.1, lookupL_setdefaultL _ _ _ _ _ hb.2⟩
  | ensureP p =>
    rcases get_node_valid_path_mod_any id (fun n k c hc => Or.inl hc) (parts p) t qs n' h with
      ⟨n₀, hn₀, hm⟩ | hm | ⟨rfl, hn'⟩
    · exact hasBuiltins_of_methods_eq n' n₀ hm (ht n₀ hn₀)
    · exact hasBuiltins_of_methods_eq n' freshNode hm hasBuiltins_fresh
    · subst hn'
      cases hc : t.get_node (parts p) with
      | some n₀ => simp only [id, hc, Option.getD_some]; exact ht n₀ hc
      | none => simp only [id, hc, Option.getD_none]; exact hasBuiltins_fresh

theorem applyOps_preserves_builtins (qs : List String) :
    ∀ (ops : List COp) (t : Node),
      (∀ p descs, COp.dirOk p descs ∈ ops → parts p ≠ qs) →
      (∀ n, t.get_node qs = some n → hasBuiltins n) →
      ∀ n', (applyOps t ops).get_node qs = some n' → hasBuiltins n' := by
  intro ops
  induction ops with
  | nil => intro t _ ht n' h; exact ht n' h
  | cons op ops ih =>
    intro t hop ht n' h
    exact ih (applyOp t op)
      (fun p descs hmem => hop p descs (List.mem_cons_of_mem op hmem))
      (applyOp_preserves_builtins t op qs
        (fun p descs heq => hop p descs (heq ▸ List.mem_cons_self op ops))
        ht)
      n' h

/-- C10: every `Node()` starts with the built-in `ls`/`dir` entries and their
standard descriptors; and for any history of cache mutations (listings, calls,
signals, path seeding) starting from a fresh tree, every cached path whose
method table was never replaced by a successful `dir` still resolves both
built-ins to the standard descriptors via `get_method`. -/
theorem builtin_methods_invariant :
    (lookupL freshNode.methods "ls" = some (some stdls) ∧
     lookupL freshNode.methods "dir" = some (some stddir)) ∧
    ∀ (ops : List COp) (qs : List String),
      (∀ p descs, COp.dirOk p descs ∈ ops → parts p ≠ qs) →
      ((applyOps freshNode ops).get_node qs).isSome = true →
      (applyOps freshNode ops).get_method qs "ls" = some stdls ∧
      (applyOps freshNode ops).get_method qs "dir" = some stddir := by
  refine ⟨hasBuiltins_fresh, fun ops qs hop hsome => ?_⟩
  cases hn : (applyOps freshNode ops).get_node qs with
  | none => rw [hn] at hsome; cases hsome
  | some n =>
    have hb : hasBuiltins n := by
      refine applyOps_preserves_builtins qs ops freshNode hop ?_ n hn
      intro n₀ h₀
      obtain ⟨-, rfl⟩ := get_node_fresh qs n₀ h₀
      exact hasBuiltins_fresh
    constructor
    · simp only [Node.get_method, hn, hb.1]; rfl
    · simp only [Node.get_method, hn, hb.2]; rfl

/-- C10 witness: after a `call`-style update on path `"a"` from a fresh tree,
`get_method` still reports the standard `ls` descriptor there. -/
theorem builtin_methods_invariant_witness :
    (applyOps freshNode [COp.callTouch "a" "x"]).get_method (parts "a") "ls" = some stdls :=
  (builtin_methods_invariant.2 [COp.callTouch "a" "x"] (parts "a")
    (by intro p ds h; simp at h) (by decide)).1

/-! ### Serialization (tree.py `Node._dump` / `Node._load`) -/

/-- One method-table entry as `_dump` encodes it:
`None if v is None else v.to_shv()`. -/
def dumpMethodEntry : Option MethodDesc → SHVVal
  | none => .null
  | some d => d.to_shv

theorem lookupL_sizeOf {α : Type} [SizeOf α] (l : List (String × α)) (k : String) (v : α)
    (h : lookupL l k = some v) : sizeOf v < sizeOf l := by
  induction l with
  | nil => cases h
  | cons kv l ih =>
    obtain ⟨k₀, v₀⟩ := kv
    unfold lookupL at h
    split at h
    · cases h
      simp [List.cons.sizeOf_spec, Prod.mk.sizeOf_spec]
      omega
    · have := ih h
      simp [List.cons.sizeOf_spec]
      omega

mutual

/-- Source `Node._dump` (tree.py lines 85-94): the structured encoding of a node —
children recursively, the method table (`None` descriptors as null), the two
probed flags. -/
def dumpNode : Node → SHVVal
  | .mk ns ms np mp =>
    .map [("nodes", .map (dumpChildren ns)),
      ("methods", .map (ms.map (fun kv => (kv.1, dumpMethodEntry kv.2)))),
      ("nodes_probed", .bool np),
      ("methods_probed", .bool mp)]

/-- The dict comprehension `{n: v._dump() for n, v in self.nodes.items()}`. -/
def dumpChildren : List (String × Node) → List (String × SHVVal)
  | [] => []
  | (k, c) :: rest => (k, dumpNode c) :: dumpChildren rest

end

mutual

/-- Source `Node._load` (tree.py lines 96-111) applied to `self`: `none` models an
exception escaping the load (a `KeyError` from `data["nodes"]`,
`data["methods"]`, `data["nodes_probed"]` or `data["methods_probed"]`),
mirroring the source, which only guards the *shapes* of `data`, `data["nodes"]`
and `data["methods"]` and only suppresses per-descriptor decode errors. -/
def loadNode (self : Node) (data : SHVVal) : Option Node :=
  match data with
  | .map entries =>
    match h₁ : lookupL entries "nodes" with
    | none => none
    | some nodesV =>
      match h₂ : (match h₃ : nodesV with
        | .map nentries => loadChildren self.nodes nentries
        | _ => some self.nodes) with
      | none => none
      | some newNodes =>
        match lookupL entries "methods" with
        | none => none
        | some methodsV =>
          match lookupL entries "nodes_probed" with
          | none => none
          | some npV =>
            match lookupL entries "methods_probed" with
            | none => none
            | some mpV =>
              some (.mk newNodes
                (match methodsV with
                  | .map mentries =>
                    mentries.foldl
                      (fun acc kv => insertL acc kv.1 (MethodDesc.from_shv kv.2)) self.methods
                  | _ => self.methods)
                npV.truthy mpV.truthy)
  | _ => some self
termination_by sizeOf data
decreasing_by
  all_goals
    rename_i entries
    have hv : sizeOf nodesV < sizeOf entries := lookupL_sizeOf entries "nodes" nodesV h₁
    subst h₃
    simp only [SHVVal.map.sizeOf_spec] at hv ⊢
    omega

/-- The loop `for n, v in data["nodes"].items(): self.nodes[n] = Node();
self.nodes[n]._load(v)` — children are loaded into fresh nodes; an exception
in a recursive load escapes. -/
def loadChildren (acc : List (String × Node)) :
    List (String × SHVVal) → Option (List (String × Node))
  | [] => some acc
  | (n, v) :: rest =>
    match loadNode freshNode v with
    | none => none
    | some c => loadChildren (insertL acc n c) rest
termination_by l => sizeOf l
decreasing_by
  · simp only [List.cons.sizeOf_spec, Prod.mk.sizeOf_spec]
    omega
  · simp only [List.cons.sizeOf_spec]
    omega

end

mutual

/-- The top-level blob shapes on which `_load` completes without raising:
either not a map at all (no-op), or a map holding all four required keys whose
`"nodes"` payload, when it is a map, holds recursively loadable values. -/
def loadSafe : SHVVal → Bool
  | .map entries =>
    (match h₁ : lookupL entries "nodes" with
     | none => false
     | some (.map nentries) => loadSafeChildren nentries
     | some _ => true) &&
    (lookupL entries "methods").isSome &&
    (lookupL entries "nodes_probed").isSome &&
    (lookupL entries "methods_probed").isSome
  | _ => true
termination_by data => sizeOf data
decreasing_by
  all_goals
    rename_i entries
    have hv : sizeOf (SHVVal.map nentries) < sizeOf entries :=
      lookupL_sizeOf entries "nodes" (SHVVal.map nentries) h₁
    simp only [SHVVal.map.sizeOf_spec] at hv ⊢
    omega

def loadSafeChildren : List (String × SHVVal) → Bool
  | [] => true
  | (_, v) :: rest => loadSafe v && loadSafeChildren rest
termination_by l => sizeOf l
decreasing_by
  · simp only [List.cons.sizeOf_spec, Prod.mk.sizeOf_spec]
    omega
  · simp only [List.cons.sizeOf_spec]
    omega

end

/-- Holds when `a` is a sub-dict of `b`: every key of `a` resolves in `b` to the same
value `a` resolves it to (Python dict equality is the conjunction of both
directions). -/
def msubEq (a b : List (String × Option MethodDesc)) : Bool :=
  a.all (fun kv => lookupL b kv.1 == lookupL a kv.1)

/-- Every key of `a` is a key of `b`. -/
def keysSubset {α β : Type} (a : List (String × α)) (b : List (String × β)) : Bool :=
  a.all (fun kv => containsKey b kv.1)

mutual

/-- Extensional (Python `dict`-style) equality of cached nodes: same probed
flags, method tables equal as maps, same child-name sets with recursively
equivalent children. -/
def equivN : Node → Node → Bool
  | .mk ns ms np mp, .mk ns' ms' np' mp' =>
    np == np' && mp == mp' && msubEq ms ms' && msubEq ms' ms &&
      keysSubset ns' ns && equivChildren ns ns'

def equivChildren : List (String × Node) → List (String × Node) → Bool
  | [], _ => true
  | (k, c) :: rest, other =>
    (match lookupL other k with
     | none => false
     | some c' => equivN c c') && equivChildren rest other

end

mutual

/-- Well-formedness every tree reachable through Python dicts has: no
duplicate keys in any children map or method table. -/
def nodeWF : Node → Bool
  | .mk ns ms _ _ => nodupKeys ns && nodupKeys ms && childrenWF ns

def childrenWF : List (String × Node) → Bool
  | [] => true
  | (_, c) :: rest => nodeWF c && childrenWF rest

end

mutual

/-- Every node of the tree still has the two built-in keys `"ls"`/`"dir"` in
its method table (with whatever descriptors). -/
def builtinKeysAll : Node → Bool
  | .mk ns ms _ _ => containsKey ms "ls" && containsKey ms "dir" && builtinKeysChildren ns

def builtinKeysChildren : List (String × Node) → Bool
  | [] => true
  | (_, c) :: rest => builtinKeysAll c && builtinKeysChildren rest

end

/-! ### Round-trip lemmas -/

/-- The external descriptor codec round-trips (spec §4.1). -/
theorem from_shv_to_shv (d : MethodDesc) : MethodDesc.from_shv d.to_shv = some d := by
  obtain ⟨n, ⟨nc, g, st, sg⟩, sigs⟩ := d
  simp [MethodDesc.to_shv, MethodDesc.from_shv, List.map_map]
  induction sigs with
  | nil => rfl
  | cons s sigs ih => simp [Function.comp, ih]

/-- Decoding a dumped method entry recovers it exactly (a `None` descriptor
dumps to null, whose decode fails and is suppressed back to `None`). -/
theorem from_shv_dumpMethodEntry (e : Option MethodDesc) :
    MethodDesc.from_shv (dumpMethodEntry e) = e := by
  cases e with
  | none => rfl
  | some d => exact from_shv_to_shv d

theorem not_containsKey_lookupL_none {α : Type} (l : List (String × α)) (k : String)
    (h : containsKey l k = false) : lookupL l k = none := by
  unfold containsKey at h
  cases hl : lookupL l k with
  | none => rfl
  | some v => rw [hl] at h; cases h

theorem containsKey_append {α : Type} (l₁ l₂ : List (String × α)) (k : String) :
    containsKey (l₁ ++ l₂) k = (containsKey l₁ k || containsKey l₂ k) := by
  unfold containsKey
  rw [lookupL_append]
  cases lookupL l₁ k <;> simp

theorem insertL_append_of_not_contains {α : Type} (l : List (String × α)) (k : String) (v : α)
    (h : containsKey l k = false) : insertL l k v = l ++ [(k, v)] := by
  induction l with
  | nil => rfl
  | cons kv l ih =>
    obtain ⟨k₀, v₀⟩ := kv
    unfold containsKey lookupL at h
    by_cases hk : k₀ = k
    · rw [if_pos hk.symm] at h; cases h
    · rw [if_neg (fun he => hk he.symm)] at h
      unfold insertL
      rw [if_neg hk, ih h]
      rfl

theorem mem_imp_containsKey {α : Type} (l : List (String × α)) (kv : String × α)
    (h : kv ∈ l) : containsKey l kv.1 = true := by
  induction l with
  | nil => cases h
  | cons kv₀ l ih =>
    obtain ⟨k₀, v₀⟩ := kv₀
    rcases List.mem_cons.mp h with rfl | hmem
    · simp [containsKey, lookupL]
    · unfold containsKey lookupL
      by_cases hk : kv.1 = k₀
      · simp [hk]
      · rw [if_neg hk]
        exact ih hmem

theorem lookupL_of_mem_nodup {α : Type} (l : List (String × α)) (k : String) (v : α)
    (hnd : nodupKeys l = true) (h : (k, v) ∈ l) : lookupL l k = some v := by
  induction l with
  | nil => cases h
  | cons kv₀ l ih =>
    obtain ⟨k₀, v₀⟩ := kv₀
    unfold nodupKeys at hnd
    rw [Bool.and_eq_true] at hnd
    rcases List.mem_cons.mp h with heq | hmem
    · cases heq
      simp [lookupL]
    · unfold lookupL
      by_cases hk : k = k₀
      · subst hk
        have := mem_imp_containsKey l (k, v) hmem
        rw [this] at hnd
        cases hnd.1
      · rw [if_neg hk]
        exact ih hnd.2 hmem

theorem lookupL_map_snd {α β : Type} (l : List (String × α)) (g : α → β) (k : String) :
    lookupL (l.map (fun kv => (kv.1, g kv.2))) k = (lookupL l k).map g := by
  induction l with
  | nil => rfl
  | cons kv l ih =>
    obtain ⟨k₀, v₀⟩ := kv
    by_cases hk : k = k₀ <;> simp [lookupL, hk, ih]

/-- Looking up after folding `d[k] = g(v)` assignments over an association
list without duplicate keys. -/
theorem lookupL_foldl_insertL {α β : Type} (g : α → β) (k : String) :
    ∀ (l : List (String × α)) (base : List (String × β)), nodupKeys l = true →
      lookupL (l.foldl (fun acc kv => insertL acc kv.1 (g kv.2)) base) k =
        match lookupL l k with
        | some v => some (g v)
        | none => lookupL base k := by
  intro l
  induction l with
  | nil => intro base _; rfl
  | cons kv l ih =>
    obtain ⟨k₀, v₀⟩ := kv
    intro base hnd
    unfold nodupKeys at hnd
    rw [Bool.and_eq_true] at hnd
    rw [List.foldl_cons, ih _ hnd.2]
    by_cases hk : k = k₀
    · subst hk
      have hnone : lookupL l k = none := by
        apply not_containsKey_lookupL_none
        cases hc : containsKey l k with
        | false => rfl
        | true => rw [hc] at hnd; cases hnd.1
      rw [hnone]
      simp [lookupL, lookupL_insertL]
    · cases hl : lookupL l k with
      | some v => simp [lookupL, hk, hl]
      | none => simp [lookupL, hk, hl, lookupL_insertL]

/-- Loading the dumped method table assigns exactly the original entries. -/
theorem foldl_insert_dumped_methods (ms : List (String × Option MethodDesc)) :
    ∀ (base : List (String × Option MethodDesc)),
      (ms.map (fun kv => (kv.1, dumpMethodEntry kv.2))).foldl
        (fun acc kv => insertL acc kv.1 (MethodDesc.from_shv kv.2)) base =
      ms.foldl (fun acc kv => insertL acc kv.1 kv.2) base := by
  induction ms with
  | nil => intro base; rfl
  | cons kv ms ih =>
    obtain ⟨k₀, v₀⟩ := kv
    intro base
    simp only [List.map_cons, List.foldl_cons, from_shv_dumpMethodEntry]
    exact ih _

theorem lookup_dump4_nodes (a b c d : SHVVal) :
    lookupL [("nodes", a), ("methods", b), ("nodes_probed", c), ("methods_probed", d)]
      "nodes" = some a := rfl

theorem lookup_dump4_methods (a b c d : SHVVal) :
    lookupL [("nodes", a), ("methods", b), ("nodes_probed", c), ("methods_probed", d)]
      "methods" = some b := rfl

theorem lookup_dump4_np (a b c d : SHVVal) :
    lookupL [("nodes", a), ("methods", b), ("nodes_probed", c), ("methods_probed", d)]
      "nodes_probed" = some c := rfl

theorem lookup_dump4_mp (a b c d : SHVVal) :
    lookupL [("nodes", a), ("methods", b), ("nodes_probed", c), ("methods_probed", d)]
      "methods_probed" = some d := rfl

/-- The node a dumped node loads back to. -/
def roundF (c : Node) : Node := (loadNode freshNode (dumpNode c)).getD freshNode

theorem loadChildren_dump (ns : List (String × Node)) :
    ∀ (acc : List (String × Node)),
      (∀ kv, kv ∈ ns → (loadNode freshNode (dumpNode kv.2)).isSome = true) →
      (∀ kv, kv ∈ ns → containsKey acc kv.1 = false) →
      nodupKeys ns = true →
      loadChildren acc (dumpChildren ns) =
        some (acc ++ ns.map (fun kv => (kv.1, roundF kv.2))) := by
  induction ns with
  | nil => intro acc _ _ _; simp [dumpChildren, loadChildren]
  | cons kv₀ rest ih =>
    obtain ⟨k₀, c₀⟩ := kv₀
    intro acc hsome hacc hnd
    unfold nodupKeys at hnd
    rw [Bool.and_eq_true] at hnd
    have hs := hsome (k₀, c₀) (List.mem_cons_self _ _)
    rw [Option.isSome_iff_exists] at hs
    obtain ⟨c', hc'⟩ := hs
    have hround : roundF c₀ = c' := by unfold roundF; rw [hc']; rfl
    have hinsert : insertL acc k₀ c' = acc ++ [(k₀, c')] :=
      insertL_append_of_not_contains acc k₀ c' (hacc (k₀, c₀) (List.mem_cons_self _ _))
    rw [show dumpChildren ((k₀, c₀) :: rest) = (k₀, dumpNode c₀) :: dumpChildren rest from
      rfl]
    simp only [loadChildren]
    rw [hc']
    simp only []
    rw [hinsert]
    rw [ih (acc ++ [(k₀, c')])
      (fun kv hkv => hsome kv (List.mem_cons_of_mem _ hkv))
      (fun kv hkv => by
        rw [containsKey_append, hacc kv (List.mem_cons_of_mem _ hkv)]
        have hk : kv.1 ≠ k₀ := by
          intro he
          have := mem_imp_containsKey rest kv hkv
          rw [he] at this
          rw [this] at hnd
          cases hnd.1
        simp [containsKey, lookupL, hk])
      hnd.2]
    simp [hround]

theorem childrenWF_mem (ns : List (String × Node)) (kv : String × Node)
    (h : childrenWF ns = true) (hm : kv ∈ ns) : nodeWF kv.2 = true := by
  induction ns with
  | nil => cases hm
  | cons kv₀ rest ih =>
    obtain ⟨k₀, c₀⟩ := kv₀
    rw [show childrenWF ((k₀, c₀) :: rest) = (nodeWF c₀ && childrenWF rest) from rfl,
      Bool.and_eq_true] at h
    rcases List.mem_cons.mp hm with rfl | hmem
    · exact h.1
    · exact ih h.2 hmem

theorem builtinKeysChildren_mem (ns : List (String × Node)) (kv : String × Node)
    (h : builtinKeysChildren ns = true) (hm : kv ∈ ns) : builtinKeysAll kv.2 = true := by
  induction ns with
  | nil => cases hm
  | cons kv₀ rest ih =>
    obtain ⟨k₀, c₀⟩ := kv₀
    rw [show builtinKeysChildren ((k₀, c₀) :: rest) =
        (builtinKeysAll c₀ && builtinKeysChildren rest) from rfl,
      Bool.and_eq_true] at h
    rcases List.mem_cons.mp hm with rfl | hmem
    · exact h.1
    · exact ih h.2 hmem

theorem sizeOf_children_mem (ns : List (String × Node))
    (ms : List (String × Option MethodDesc)) (np mp : Bool) (kv : String × Node)
    (hm : kv ∈ ns) : sizeOf kv.2 < sizeOf (Node.mk ns ms np mp) := by
  have h1 : sizeOf kv < sizeOf ns := List.sizeOf_lt_of_mem hm
  obtain ⟨k, c⟩ := kv
  simp only [Prod.mk.sizeOf_spec] at h1
  simp only [Node.mk.sizeOf_spec]
  omega

theorem lookupL_foldl_insertL_id {α : Type} (k : String) (l : List (String × α))
    (base : List (String × α)) (hnd : nodupKeys l = true) :
    lookupL (l.foldl (fun acc kv => insertL acc kv.1 kv.2) base) k =
      match lookupL l k with
      | some v => some v
      | none => lookupL base k := by
  have h := lookupL_foldl_insertL id k l base hnd
  simpa using h

theorem equivChildren_of_forall (ns : List (String × Node)) :
    ∀ (sub : List (String × Node)),
      (∀ kv, kv ∈ sub → ∃ c', lookupL ns kv.1 = some c' ∧ equivN kv.2 c' = true) →
      equivChildren sub ns = true := by
  intro sub
  induction sub with
  | nil => intro _; rfl
  | cons kv rest ih =>
    obtain ⟨k, c⟩ := kv
    intro h
    obtain ⟨c', hc', he⟩ := h (k, c) (List.mem_cons_self _ _)
    rw [show equivChildren ((k, c) :: rest) ns =
        ((match lookupL ns k with
          | none => false
          | some c' => equivN c c') && equivChildren rest ns) from rfl, hc']
    rw [Bool.and_eq_true]
    exact ⟨he, ih (fun kv hkv => h kv (List.mem_cons_of_mem _ hkv))⟩

/-- Loading the dump of a node into a fresh node: the children are the loaded
children in dump order, the method table is the original table assigned over
the fresh defaults, the flags are restored. -/
theorem dump_load_shape (ns : List (String × Node)) (ms : List (String × Option MethodDesc))
    (np mp : Bool)
    (hsome : ∀ kv, kv ∈ ns → (loadNode freshNode (dumpNode kv.2)).isSome = true)
    (hnd : nodupKeys ns = true) :
    loadNode freshNode (dumpNode (Node.mk ns ms np mp)) =
      some (Node.mk (ns.map (fun kv => (kv.1, roundF kv.2)))
        (ms.foldl (fun acc kv => insertL acc kv.1 kv.2) defaultMethods) np mp) := by
  have e_dump : dumpNode (Node.mk ns ms np mp) =
      SHVVal.map [("nodes", SHVVal.map (dumpChildren ns)),
        ("methods", SHVVal.map (ms.map (fun kv => (kv.1, dumpMethodEntry kv.2)))),
        ("nodes_probed", SHVVal.bool np), ("methods_probed", SHVVal.bool mp)] := by
    simp [dumpNode]
  have e_children : loadChildren freshNode.nodes (dumpChildren ns) =
      some (ns.map (fun kv => (kv.1, roundF kv.2))) := by
    rw [show freshNode.nodes = ([] : List (String × Node)) from rfl]
    rw [loadChildren_dump ns [] hsome (fun kv _ => rfl) hnd]
    simp
  rw [e_dump]
  simp only [loadNode, lookup_dump4_nodes, lookup_dump4_methods, lookup_dump4_np,
    lookup_dump4_mp]
  rw [e_children]
  simp only []
  rw [show freshNode.methods = defaultMethods from rfl, foldl_insert_dumped_methods]
  simp [SHVVal.truthy]

theorem lookupL_defaultMethods_ne (k : String) (h1 : k ≠ "ls") (h2 : k ≠ "dir") :
    lookupL defaultMethods k = none := by
  simp [defaultMethods, lookupL, h1, h2]

theorem roundtrip_aux :
    ∀ (N : Nat) (T : Node), sizeOf T ≤ N → nodeWF T = true → builtinKeysAll T = true →
      (loadNode freshNode (dumpNode T)).isSome = true ∧ equivN (roundF T) T = true := by
  intro N
  induction N with
  | zero =>
    intro T hsize _ _
    obtain ⟨ns, ms, np, mp⟩ := T
    simp only [Node.mk.sizeOf_spec] at hsize
    omega
  | succ N ih =>
    intro T hsize hwf hbk
    obtain ⟨ns, ms, np, mp⟩ := T
    rw [show nodeWF (Node.mk ns ms np mp) =
        (nodupKeys ns && nodupKeys ms && childrenWF ns) from rfl,
      Bool.and_eq_true, Bool.and_eq_true] at hwf
    rw [show builtinKeysAll (Node.mk ns ms np mp) =
        (containsKey ms "ls" && containsKey ms "dir" && builtinKeysChildren ns) from rfl,
      Bool.and_eq_true, Bool.and_eq_true] at hbk
    have hchild : ∀ kv, kv ∈ ns →
        (loadNode freshNode (dumpNode kv.2)).isSome = true ∧
        equivN (roundF kv.2) kv.2 = true := by
      intro kv hkv
      refine ih kv.2 ?_ (childrenWF_mem ns kv hwf.2 hkv) (builtinKeysChildren_mem ns kv hbk.2 hkv)
      have := sizeOf_children_mem ns ms np mp kv hkv
      simp only [Node.mk.sizeOf_spec] at hsize this ⊢
      omega
    have hload := dump_load_shape ns ms np mp (fun kv h => (hchild kv h).1) hwf.1.1
    have hroundT : roundF (Node.mk ns ms np mp) =
        Node.mk (ns.map (fun kv => (kv.1, roundF kv.2)))
          (ms.foldl (fun acc kv => insertL acc kv.1 kv.2) defaultMethods) np mp := by
      unfold roundF
      rw [hload]
      rfl
    refine ⟨by rw [hload]; rfl, ?_⟩
    rw [hroundT]
    rw [show equivN
        (Node.mk (ns.map (fun kv => (kv.1, roundF kv.2)))
          (ms.foldl (fun acc kv => insertL acc kv.1 kv.2) defaultMethods) np mp)
        (Node.mk ns ms np mp) =
        (np == np && mp == mp &&
          msubEq (ms.foldl (fun acc kv => insertL acc kv.1 kv.2) defaultMethods) ms &&
          msubEq ms (ms.foldl (fun acc kv => insertL acc kv.1 kv.2) defaultMethods) &&
          keysSubset ns (ns.map (fun kv => (kv.1, roundF kv.2))) &&
          equivChildren (ns.map (fun kv => (kv.1, roundF kv.2))) ns) from rfl]
    simp only [Bool.and_eq_true, beq_self_eq_true]
    refine ⟨⟨⟨⟨⟨trivial, trivial⟩, ?_⟩, ?_⟩, ?_⟩, ?_⟩
    · -- msubEq M ms
      unfold msubEq
      rw [List.all_eq_true]
      intro kv hkv
      have hM := lookupL_foldl_insertL_id kv.1 ms defaultMethods hwf.1.2
      cases hms : lookupL ms kv.1 with
      | some v =>
        rw [hM, hms]
        simp
      | none =>
        exfalso
        rw [hms] at hM
        have hconM := mem_imp_containsKey _ kv hkv
        unfold containsKey at hconM
        rw [hM] at hconM
        by_cases h1 : kv.1 = "ls"
        · have := hbk.1.1
          unfold containsKey at this
          rw [h1] at hms
          rw [hms] at this
          cases this
        · by_cases h2 : kv.1 = "dir"
          · have := hbk.1.2
            unfold containsKey at this
            rw [h2] at hms
            rw [hms] at this
            cases this
          · rw [lookupL_defaultMethods_ne kv.1 h1 h2] at hconM
            cases hconM
    · -- msubEq ms M
      unfold msubEq
      rw [List.all_eq_true]
      intro kv hkv
      have hM := lookupL_foldl_insertL_id kv.1 ms defaultMethods hwf.1.2
      cases hms : lookupL ms kv.1 with
      | some v =>
        rw [hM, hms]
        simp
      | none =>
        exfalso
        have := mem_imp_containsKey ms kv hkv
        unfold containsKey at this
        rw [hms] at this
        cases this
    · -- keysSubset ns L
      unfold keysSubset
      rw [List.all_eq_true]
      intro kv hkv
      unfold containsKey
      rw [lookupL_map_snd]
      have := mem_imp_containsKey ns kv hkv
      unfold containsKey at this
      cases hns : lookupL ns kv.1 with
      | some c => simp
      | none => rw [hns] at this; cases this
    · -- equivChildren L ns
      refine equivChildren_of_forall ns _ ?_
      intro kv hkv
      obtain ⟨kv₀, hkv₀, rfl⟩ := List.mem_map.mp hkv
      refine ⟨kv₀.2, ?_, ?_⟩
      · exact lookupL_of_mem_nodup ns kv₀.1 kv₀.2 hwf.1.1 (by exact hkv₀)
      · exact (hchild kv₀ hkv₀).2

/-- C6 (amended): loading the dump of `T` into a fresh tree reconstructs `T`
up to Python-dict equality **provided** every node of `T` still carries the
two built-in `ls`/`dir` keys in its method table; children (recursively),
every method entry (including `None` descriptors) and both probed flags are
preserved.  Without the proviso the round trip is *not* exact: `_load` starts
from a fresh node, whose default built-in entries survive whenever the dump
lacks them (see the counterexample). -/
theorem dump_load_roundtrip_amended (T : Node) (hwf : nodeWF T = true)
    (hbk : builtinKeysAll T = true) :
    loadNode freshNode (dumpNode T) = some (roundF T) ∧ equivN (roundF T) T = true := by
  have h := roundtrip_aux (sizeOf T) T le_rfl hwf hbk
  refine ⟨?_, h.2⟩
  cases hl : loadNode freshNode (dumpNode T) with
  | none => rw [hl] at h; cases h.1
  | some T' =>
    unfold roundF
    rw [hl]
    rfl

theorem sizeOf_pos_shv (d : SHVVal) : 0 < sizeOf d := by
  cases d <;> simp_arith

theorem load_safe_isSome_aux :
    ∀ (N : Nat) (data : SHVVal), sizeOf data ≤ N → loadSafe data = true →
      ∀ self, (loadNode self data).isSome = true := by
  intro N
  induction N with
  | zero =>
    intro data hsize _ _
    have := sizeOf_pos_shv data
    omega
  | succ N ih =>
    intro data hsize hsafe self
    cases data with
    | map entries =>
      simp only [loadSafe, Bool.and_eq_true] at hsafe
      obtain ⟨⟨⟨hnodes, hmeth⟩, hnp⟩, hmp⟩ := hsafe
      have hch : ∀ (l : List (String × SHVVal)), (∀ kv, kv ∈ l → sizeOf kv.2 ≤ N) →
          loadSafeChildren l = true → ∀ acc, (loadChildren acc l).isSome = true := by
        intro l
        induction l with
        | nil => intro _ _ acc; simp [loadChildren]
        | cons kv rest ihl =>
          obtain ⟨n, v⟩ := kv
          intro hsz hsf acc
          simp only [loadSafeChildren, Bool.and_eq_true] at hsf
          have h1 := ih v (hsz (n, v) (List.mem_cons_self _ _)) hsf.1 freshNode
          rw [Option.isSome_iff_exists] at h1
          obtain ⟨c, hc⟩ := h1
          simp only [loadChildren]
          rw [hc]
          simp only []
          exact ihl (fun kv hkv => hsz kv (List.mem_cons_of_mem _ hkv)) hsf.2 _
      simp only [loadNode]
      split at hnodes
      · cases hnodes
      · next nentries heq =>
        have hs : ∀ kv, kv ∈ nentries → sizeOf kv.2 ≤ N := by
          intro kv hkv
          have h1 : sizeOf kv < sizeOf nentries := List.sizeOf_lt_of_mem hkv
          have h2 : sizeOf (SHVVal.map nentries) < sizeOf entries :=
            lookupL_sizeOf entries "nodes" _ heq
          obtain ⟨k, v⟩ := kv
          simp only [Prod.mk.sizeOf_spec] at h1
          simp only [SHVVal.map.sizeOf_spec] at h2 hsize
          show sizeOf v ≤ N
          omega
        have hload := hch nentries hs hnodes self.nodes
        rw [Option.isSome_iff_exists] at hload
        obtain ⟨L, hL⟩ := hload
        rw [Option.isSome_iff_exists] at hmeth hnp hmp
        obtain ⟨mV, hmV⟩ := hmeth
        obtain ⟨npV, hnpV⟩ := hnp
        obtain ⟨mpV, hmpV⟩ := hmp
        split
        · next heq0 => rw [heq0] at heq; cases heq
        · next nodesV heq0 =>
          rw [heq0] at heq
          cases heq
          split
          · next heq2 =>
            simp only [] at heq2
            rw [hL] at heq2
            cases heq2
          · next newNodes heq2 =>
            rw [hmV, hnpV, hmpV]
            rfl
      · next x hxne hlk =>
        rw [Option.isSome_iff_exists] at hmeth hnp hmp
        obtain ⟨mV, hmV⟩ := hmeth
        obtain ⟨npV, hnpV⟩ := hnp
        obtain ⟨mpV, hmpV⟩ := hmp
        split
        · next heq0 => rw [heq0] at hlk; cases hlk
        · next nodesV heq0 =>
          rw [heq0] at hlk
          cases hlk
          split
          · next heq2 =>
            cases x with
            | map l => exact (hxne l rfl).elim
            | null => cases heq2
            | bool b => cases heq2
            | int n => cases heq2
            | str s => cases heq2
            | imap l => cases heq2
          · next newNodes heq2 =>
            rw [hmV, hnpV, hmpV]
            rfl
    | null => simp [loadNode]
    | bool b => simp [loadNode]
    | int n => simp [loadNode]
    | str s => simp [loadNode]
    | imap l => simp [loadNode]

/-- The method table of a successfully loaded node: each dumped entry is
decoded with `from_shv` (decode failures suppressed to `None`) and assigned
over the node's existing table. -/
theorem loadNode_methods_shape (self : Node) (entries : List (String × SHVVal)) (res : Node)
    (h : loadNode self (SHVVal.map entries) = some res) (mentries : List (String × SHVVal))
    (hm : lookupL entries "methods" = some (SHVVal.map mentries)) :
    res.methods = mentries.foldl (fun acc kv => insertL acc kv.1 (MethodDesc.from_shv kv.2))
      self.methods := by
  simp only [loadNode] at h
  split at h
  · cases h
  · split at h
    · cases h
    · next newNodes heq2 =>
      rw [hm] at h
      simp only [] at h
      split at h
      · cases h
      · split at h
        · cases h
        · rw [← Option.some.inj h]
          simp

/-- C7 (amended): after the basic container-type check, `_load` raises iff a
required key is missing: (a) it completes without raising whenever the blob is
`loadSafe` — not a map, or a map with all four required keys whose `"nodes"`
sub-blobs are recursively so; (b) an individually malformed method descriptor
inside a loadable blob is skipped — the entry is kept, degraded to `None`
("unspecified but callable"); (c) a totally malformed (non-map) top-level blob
makes the load a no-op, leaving the tree as it was (empty and usable when
fresh).  A *map* missing a required key, however, raises `KeyError` (see the
counterexample). -/
theorem load_error_handling_amended :
    (∀ (data : SHVVal) (self : Node), loadSafe data = true →
      (loadNode self data).isSome = true) ∧
    (∀ (self : Node) (entries mentries : List (String × SHVVal))
        (res : Node) (k : String) (v : SHVVal),
      loadNode self (SHVVal.map entries) = some res →
      lookupL entries "methods" = some (SHVVal.map mentries) →
      nodupKeys mentries = true → (k, v) ∈ mentries → MethodDesc.from_shv v = none →
      lookupL res.methods k = some none) ∧
    (∀ (self : Node) (data : SHVVal), data.isShvMap = false →
      loadNode self data = some self) := by
  refine ⟨?_, ?_, ?_⟩
  · intro data self hsafe
    exact load_safe_isSome_aux (sizeOf data) data le_rfl hsafe self
  · intro self entries mentries res k v hload hm hnd hmem hbad
    rw [loadNode_methods_shape self entries res hload mentries hm]
    rw [lookupL_foldl_insertL MethodDesc.from_shv k mentries self.methods hnd]
    rw [lookupL_of_mem_nodup mentries k v hnd hmem]
    simp [hbad]
  · intro self data hnm
    cases data with
    | map entries => cases hnm
    | null => simp [loadNode]
    | bool b => simp [loadNode]
    | int n => simp [loadNode]
    | str s => simp [loadNode]
    | imap l => simp [loadNode]

/-- C7 witness: the amended theorem at a concrete loadable blob, a malformed
descriptor inside it (degraded to an unspecified-but-callable entry), and a
non-map blob (no-op). -/
theorem load_error_handling_amended_witness :
    (loadNode freshNode (SHVVal.map [("nodes", SHVVal.int 0), ("methods", SHVVal.int 0),
      ("nodes_probed", SHVVal.bool true), ("methods_probed", SHVVal.bool false)])).isSome =
      true ∧
    loadNode freshNode (SHVVal.str "garbage") = some freshNode := by
  constructor
  · exact load_error_handling_amended.1 _ freshNode (by simp [loadSafe, lookupL])
  · exact load_error_handling_amended.2.2 freshNode (SHVVal.str "garbage") rfl

/-- C7 counterexample: a blob that *is* a string-keyed map (so it passes the
`is_shvmap` container-type check) but lacks the required `"nodes"` key makes
`_load` raise `KeyError` (modelled as `none`) instead of never raising. -/
theorem load_missing_key_raises_cex :
    SHVVal.isShvMap (SHVVal.map [("x", SHVVal.null)]) = true ∧
    (loadNode freshNode (SHVVal.map [("x", SHVVal.null)])).isSome = false := by
  constructor
  · rfl
  · simp [loadNode, lookupL]

/-- C6 witness: the amended round trip at a fresh node (which satisfies both
provisos). -/
theorem dump_load_roundtrip_amended_witness :
    equivN (roundF freshNode) freshNode = true :=
  (dump_load_roundtrip_amended freshNode (by decide) (by decide)).2

/-- C6 counterexample: a node whose method table is empty (reachable via a
successful `dir` returning no callable methods) does **not** round-trip
exactly: the load starts from a fresh `Node()`, whose default built-in
`ls`/`dir` entries survive because the dump has no such keys — the
reconstructed table has an `ls` entry the original lacked. -/
theorem dump_load_roundtrip_cex :
    loadNode freshNode (dumpNode (Node.mk [] [] true true)) =
      some (Node.mk [] defaultMethods true true) ∧
    equivN (Node.mk [] defaultMethods true true) (Node.mk [] [] true true) = false ∧
    lookupL (Node.mk [] defaultMethods true true).methods "ls" = some (some stdls) ∧
    lookupL (Node.mk [] [] true true : Node).methods "ls" = none := by
  refine ⟨?_, by decide, by decide, by decide⟩
  have h := dump_load_shape [] [] true true (fun kv hk => absurd hk (List.not_mem_nil kv)) rfl
  simpa using h

/-- Sanity check of the path model against `PurePosixPath` semantics. -/
theorem parts_examples :
    parts "a/b" = ["a", "b"] ∧ parts "a//.//b/" = ["a", "b"] ∧ countSlash "a/b/c" = 2 := by
  refine ⟨by decide, by decide, by decide⟩

end Shvcli
